import Mathlib

/-!
Shallow embedding of the treeline write-path reorganization core:
the MemTable (src/db/memtable.cc), the overflow-chain reorganization
(src/db/db_impl_reorg.cc), and the segment flatten/rewrite helpers
(src/page_grouping/manager_rewrite.cc, src/page_grouping/manager_load.cc),
together with theorems settling the specification claims.
-/

namespace Treeline

/-- Return status of the operations (util/status.h is external to the given
sources; only the three outcomes reached by the embedded code are modelled). -/
inductive Status where
  | ok
  | notFound
  | invalidArgument
deriving DecidableEq, Repr

namespace Memtable

/-- A byte string (a key or a value), one `Nat` per byte. -/
abbrev Bytes := List Nat

/-- Slice::compare (util/slice.h, external): memcmp over the common prefix,
ties broken by length, with the sign canonicalized to -1, 0, 1. -/
def sliceCompare : Bytes → Bytes → Int
  | [], [] => 0
  | [], _ :: _ => -1
  | _ :: _, [] => 1
  | a :: as, b :: bs =>
    if a < b then -1 else if b < a then 1 else sliceCompare as bs

/-- Modelled from the spec: MemTable::EntryType (memtable.h is not among the
sources); the entry type is a Write/Delete tag stored in the low 8 bits of the
sequence number. -/
inductive EntryType where
  | kWrite
  | kDelete
deriving DecidableEq, Repr

/-- The 8-bit tag of an entry type. -/
def EntryType.tag : EntryType → Nat
  | .kWrite => 0
  | .kDelete => 1

/-- A MemTable record: MemTable::Record's header plus its inline key and value
bytes (memtable.cc stores them contiguously in the arena). -/
structure Record where
  key : Bytes
  value : Bytes
  sequence_number : Nat
deriving DecidableEq, Repr

/-- MemTable::Comparator::operator() (src/db/memtable.cc, lines 68-99):
compare the full keys first; on equal keys the record with the larger
sequence number is reported as smaller so that it sorts earlier. -/
def comparatorCmp (r1 r2 : Record) : Int :=
  if sliceCompare r1.key r2.key ≠ 0 then sliceCompare r1.key r2.key
  else if r1.sequence_number < r2.sequence_number then 1
  else if r2.sequence_number < r1.sequence_number then -1
  else 0

/-- The skip list (util/inlineskiplist.h, external) keeps records sorted in
ascending comparator order; Insert places a record at its sorted position. -/
def tableInsert (r : Record) : List Record → List Record
  | [] => [r]
  | x :: xs => if comparatorCmp r x < 0 then r :: x :: xs else x :: tableInsert r xs

/-- The lookup record built by MemTable::Iterator::Seek (memtable.cc lines
144-156): the target key, no value, and the maximum uint64 sequence number. -/
def seekSentinel (k : Bytes) : Record := ⟨k, [], 2 ^ 64 - 1⟩

/-- The skip list Seek positions at the first record that does not compare
strictly below the lookup record. -/
def seekPred (k : Bytes) (x : Record) : Bool := decide (0 ≤ comparatorCmp x (seekSentinel k))

/-- Seek over the sorted entry list: first record greater than or equal to the
sentinel in comparator order. -/
def tableSeek (k : Bytes) (l : List Record) : Option Record := l.find? (seekPred k)

/-- MemTable::Get (memtable.cc lines 24-34) on an entry list: seek to the
sentinel; if the found record's key differs from the target, NotFound
(`none`); otherwise the record's entry-type tag and value. -/
def getFromEntries (l : List Record) (key : Bytes) : Option (Nat × Bytes) :=
  match tableSeek key l with
  | none => none
  | some r =>
    if sliceCompare key r.key = 0 then some (r.sequence_number % 256, r.value) else none

/-- The MemTable state: the sorted entry list and the next sequence counter. -/
structure MemTable where
  entries : List Record
  next_sequence_num : Nat

/-- MemTable::MemTable(): empty table, counter 0. -/
def MemTable.empty : MemTable := ⟨[], 0⟩

/-- The sequence number stored by InsertImpl:
`(next_sequence_num_++ << 8) | type`, in uint64 arithmetic (so the counter is
effectively reduced mod 2^56 before the shift). -/
def mkSeqNum (counter : Nat) (t : EntryType) : Nat := counter % 2 ^ 56 * 256 + t.tag

/-- MemTable::InsertImpl (memtable.cc lines 48-66): allocate a fresh record
stamped with the next sequence number and the type tag, insert it into the
table. There is no failure branch. -/
def insertImpl (mt : MemTable) (key value : Bytes) (t : EntryType) : Status × MemTable :=
  (Status.ok,
    { entries := tableInsert ⟨key, value, mkSeqNum mt.next_sequence_num t⟩ mt.entries,
      next_sequence_num := mt.next_sequence_num + 1 })

/-- MemTable::Put (memtable.cc lines 20-22). -/
def MemTable.put (mt : MemTable) (key value : Bytes) : Status × MemTable :=
  insertImpl mt key value .kWrite

/-- MemTable::Delete (memtable.cc lines 36-38): a tombstone with an empty
value. -/
def MemTable.del (mt : MemTable) (key : Bytes) : Status × MemTable :=
  insertImpl mt key [] .kDelete

/-- MemTable::Get on the table state; `none` stands for Status::NotFound
and `some (tag, value)` for Status::OK with the out-parameters set. -/
def MemTable.get (mt : MemTable) (key : Bytes) : Option (Nat × Bytes) :=
  getFromEntries mt.entries key

/-- A Put or Delete operation, for whole-trace statements. -/
inductive MOp where
  | put (k v : Bytes)
  | del (k : Bytes)
deriving DecidableEq, Repr

/-- The key an operation touches. -/
def MOp.key : MOp → Bytes
  | .put k _ => k
  | .del k => k

/-- Apply one operation to the table. -/
def applyOp (mt : MemTable) : MOp → MemTable
  | .put k v => (mt.put k v).2
  | .del k => (mt.del k).2

/-- Run a trace of operations from the empty table. -/
def applyOps (ops : List MOp) : MemTable := ops.foldl applyOp MemTable.empty

/-- Reference semantics of Get: the most recently inserted record for the key,
a Delete appearing as the kDelete tag with an empty value. -/
def specGet (ops : List MOp) (k : Bytes) : Option (Nat × Bytes) :=
  match ops.reverse.find? (fun op => decide (op.key = k)) with
  | none => none
  | some (.put _ v) => some (EntryType.kWrite.tag, v)
  | some (.del _) => some (EntryType.kDelete.tag, [])

/-! Basic facts about `sliceCompare`. -/

theorem sliceCompare_self (a : Bytes) : sliceCompare a a = 0 := by
  induction a with
  | nil => rfl
  | cons x xs ih => simp [sliceCompare, ih]

theorem sliceCompare_eq_zero_iff {a b : Bytes} : sliceCompare a b = 0 ↔ a = b := by
  induction a generalizing b with
  | nil => cases b <;> simp [sliceCompare]
  | cons x xs ih =>
    cases b with
    | nil => simp [sliceCompare]
    | cons y ys =>
      by_cases hxy : x < y
      · simp [sliceCompare, hxy]
        omega
      · by_cases hyx : y < x
        · simp [sliceCompare, hxy, hyx]
          omega
        · have hxy' : x = y := by omega
          subst hxy'
          simp [sliceCompare, ih]

theorem sliceCompare_antisym (a b : Bytes) : sliceCompare b a = -sliceCompare a b := by
  induction a generalizing b with
  | nil => cases b <;> simp [sliceCompare]
  | cons x xs ih =>
    cases b with
    | nil => simp [sliceCompare]
    | cons y ys =>
      by_cases hxy : x < y
      · have : ¬ y < x := by omega
        simp [sliceCompare, hxy, this]
      · by_cases hyx : y < x
        · simp [sliceCompare, hxy, hyx]
        · have hxy' : x = y := by omega
          subst hxy'
          simp [sliceCompare, ih]

theorem sliceCompare_cases (a b : Bytes) :
    sliceCompare a b = -1 ∨ sliceCompare a b = 0 ∨ sliceCompare a b = 1 := by
  induction a generalizing b with
  | nil => cases b <;> simp [sliceCompare]
  | cons x xs ih =>
    cases b with
    | nil => simp [sliceCompare]
    | cons y ys =>
      by_cases hxy : x < y
      · simp [sliceCompare, hxy]
      · by_cases hyx : y < x
        · simp [sliceCompare, hxy, hyx]
        · have hxy' : x = y := by omega
          subst hxy'
          simp [sliceCompare, ih]

theorem sliceCompare_trans_neg {a b c : Bytes} (hab : sliceCompare a b = -1)
    (hbc : sliceCompare b c = -1) : sliceCompare a c = -1 := by
  induction a generalizing b c with
  | nil =>
    cases b with
    | nil => simp [sliceCompare] at hab
    | cons y ys =>
      cases c with
      | nil => simp [sliceCompare] at hbc
      | cons z zs => simp [sliceCompare]
  | cons x xs ih =>
    cases b with
    | nil => simp [sliceCompare] at hab
    | cons y ys =>
      cases c with
      | nil => simp [sliceCompare] at hbc
      | cons z zs =>
        simp only [sliceCompare] at hab hbc ⊢
        by_cases hxy : x < y
        · by_cases hyz : y < z
          · have hxz : x < z := by omega
            simp [hxz]
          · by_cases hzy : z < y
            · simp [hyz, hzy] at hbc
            · have : y = z := by omega
              subst this
              simp [hxy]
        · by_cases hyx : y < x
          · simp [hxy, hyx] at hab
          · have hxy' : x = y := by omega
            subst hxy'
            simp only [hxy, if_neg, lt_irrefl, if_false] at hab
            by_cases hyz : x < z
            · simp [hyz]
            · by_cases hzy : z < x
              · simp [hyz, hzy] at hbc
              · have : x = z := by omega
                subst this
                simp only [lt_irrefl, if_false] at hbc ⊢
                exact ih hab hbc

theorem sliceCompare_trans_nonpos {a b c : Bytes} (hab : sliceCompare a b ≤ 0)
    (hbc : sliceCompare b c ≤ 0) : sliceCompare a c ≤ 0 := by
  rcases sliceCompare_cases a b with h1 | h1 | h1
  · rcases sliceCompare_cases b c with h2 | h2 | h2
    · have := sliceCompare_trans_neg h1 h2
      omega
    · have hb : b = c := sliceCompare_eq_zero_iff.mp h2
      subst hb
      omega
    · omega
  · have hb : a = b := sliceCompare_eq_zero_iff.mp h1
    subst hb
    exact hbc
  · omega

theorem sliceCompare_eq_negOne_iff {a b : Bytes} :
    sliceCompare a b = -1 ↔ List.Lex (· < ·) a b := by
  induction a generalizing b with
  | nil =>
    cases b with
    | nil => simp [sliceCompare]
    | cons y ys => simp [sliceCompare, List.Lex.nil]
  | cons x xs ih =>
    cases b with
    | nil => simp [sliceCompare]
    | cons y ys =>
      by_cases hxy : x < y
      · simp only [sliceCompare, hxy, if_true, true_iff]
        exact List.Lex.rel hxy
      · by_cases hyx : y < x
        · simp only [sliceCompare, hxy, if_false, hyx, if_true]
          constructor
          · intro h
            omega
          · intro h
            cases h with
            | cons h => omega
            | rel h => omega
        · have hxy' : x = y := by omega
          subst hxy'
          simp only [sliceCompare, lt_irrefl, if_false]
          rw [ih, List.Lex.cons_iff]

theorem sliceCompare_eq_one_iff {a b : Bytes} :
    sliceCompare a b = 1 ↔ List.Lex (· < ·) b a := by
  rw [← sliceCompare_eq_negOne_iff (a := b) (b := a), sliceCompare_antisym a b]
  omega

theorem comparatorCmp_eq_zero_iff {r1 r2 : Record} :
    comparatorCmp r1 r2 = 0 ↔
      (r1.key = r2.key ∧ r1.sequence_number = r2.sequence_number) := by
  unfold comparatorCmp
  by_cases h : sliceCompare r1.key r2.key = 0
  · have he := sliceCompare_eq_zero_iff.mp h
    simp only [h, ne_eq, not_true_eq_false, if_false]
    constructor
    · intro hc
      refine ⟨he, ?_⟩
      split_ifs at hc <;> omega
    · rintro ⟨_, hs⟩
      simp [hs]
  · simp only [h, ne_eq, not_false_eq_true, if_true]
    constructor
    · intro hc
      exact hc.elim
    · rintro ⟨he, _⟩
      exact absurd (by rw [he]; exact sliceCompare_self _) h

theorem comparatorCmp_eq_negOne_iff {r1 r2 : Record} :
    comparatorCmp r1 r2 = -1 ↔
      (List.Lex (· < ·) r1.key r2.key ∨
        (r1.key = r2.key ∧ r2.sequence_number < r1.sequence_number)) := by
  unfold comparatorCmp
  by_cases h : sliceCompare r1.key r2.key = 0
  · have he := sliceCompare_eq_zero_iff.mp h
    have hnlex : ¬ List.Lex (· < ·) r1.key r2.key := by
      rw [← sliceCompare_eq_negOne_iff]
      omega
    simp only [h, ne_eq, not_true_eq_false, if_false]
    constructor
    · intro hc
      right
      refine ⟨he, ?_⟩
      split_ifs at hc <;> omega
    · rintro (hlex | ⟨_, hlt⟩)
      · exact absurd hlex hnlex
      · have h1 : ¬ r1.sequence_number < r2.sequence_number := by omega
        simp [h1, hlt]
  · simp only [h, ne_eq, not_false_eq_true, if_true]
    rcases sliceCompare_cases r1.key r2.key with h1 | h1 | h1
    · have hlex := sliceCompare_eq_negOne_iff.mp h1
      simp [h1, hlex]
    · exact absurd h1 h
    · have hne : r1.key ≠ r2.key := fun he => h (by rw [he]; exact sliceCompare_self _)
      have hnlex : ¬ List.Lex (· < ·) r1.key r2.key := by
        rw [← sliceCompare_eq_negOne_iff]
        omega
      rw [h1]
      constructor
      · intro hc
        norm_num at hc
      · rintro (hlex | ⟨he, _⟩)
        · exact absurd hlex hnlex
        · exact absurd he hne

/-- C3: the MemTable comparator orders records by lexicographic comparison of
their keys, and for two records with equal keys the record with the greater
sequence number compares strictly less (sorts strictly earlier). -/
theorem comparator_orders_by_key_then_greater_seq_first : ∀ r1 r2 : Record,
    (comparatorCmp r1 r2 = -1 ↔
      (List.Lex (· < ·) r1.key r2.key ∨
        (r1.key = r2.key ∧ r2.sequence_number < r1.sequence_number))) ∧
    (comparatorCmp r1 r2 = 0 ↔
      (r1.key = r2.key ∧ r1.sequence_number = r2.sequence_number)) :=
  fun _ _ => ⟨comparatorCmp_eq_negOne_iff, comparatorCmp_eq_zero_iff⟩

/-! Facts about the record comparator. -/

theorem comparatorCmp_cases (r1 r2 : Record) :
    comparatorCmp r1 r2 = -1 ∨ comparatorCmp r1 r2 = 0 ∨ comparatorCmp r1 r2 = 1 := by
  unfold comparatorCmp
  rcases sliceCompare_cases r1.key r2.key with h | h | h <;>
    · rw [h]
      split_ifs <;> omega

theorem comparatorCmp_antisym (r1 r2 : Record) :
    comparatorCmp r2 r1 = -comparatorCmp r1 r2 := by
  unfold comparatorCmp
  rw [sliceCompare_antisym r1.key r2.key]
  rcases sliceCompare_cases r1.key r2.key with h | h | h <;>
    · rw [h]
      split_ifs <;> omega

theorem comparatorCmp_lt_zero_iff {r1 r2 : Record} :
    comparatorCmp r1 r2 < 0 ↔
      (sliceCompare r1.key r2.key = -1 ∨
        (r1.key = r2.key ∧ r2.sequence_number < r1.sequence_number)) := by
  unfold comparatorCmp
  by_cases h : sliceCompare r1.key r2.key = 0
  · have he := sliceCompare_eq_zero_iff.mp h
    simp only [h, ne_eq, not_true_eq_false, if_false]
    split_ifs with h1 h2
    · constructor
      · intro hc
        omega
      · rintro (hsc | ⟨_, hlt⟩)
        · exact hsc.elim
        · omega
    · constructor
      · intro _
        exact Or.inr ⟨he, h2⟩
      · intro _
        norm_num
    · constructor
      · intro hc
        omega
      · rintro (hsc | ⟨_, hlt⟩)
        · exact hsc.elim
        · omega
  · simp only [h, ne_eq, not_false_eq_true, if_true]
    constructor
    · intro hc
      left
      rcases sliceCompare_cases r1.key r2.key with h1 | h1 | h1 <;> omega
    · rintro (hsc | ⟨he, _⟩)
      · omega
      · exact absurd (by rw [he]; exact sliceCompare_self _) h

theorem comparatorCmp_trans_neg {a b c : Record} (h1 : comparatorCmp a b < 0)
    (h2 : comparatorCmp b c < 0) : comparatorCmp a c < 0 := by
  rw [comparatorCmp_lt_zero_iff] at h1 h2 ⊢
  rcases h1 with hs1 | ⟨he1, hq1⟩ <;> rcases h2 with hs2 | ⟨he2, hq2⟩
  · exact Or.inl (sliceCompare_trans_neg hs1 hs2)
  · rw [he2] at hs1
    exact Or.inl hs1
  · rw [← he1] at hs2
    exact Or.inl hs2
  · exact Or.inr ⟨he1.trans he2, by omega⟩

/-! The skip-list insert keeps the table sorted and Seek finds the right
record. -/

theorem mem_tableInsert {r y : Record} {l : List Record} :
    y ∈ tableInsert r l ↔ y = r ∨ y ∈ l := by
  induction l with
  | nil => simp [tableInsert]
  | cons x xs ih =>
    by_cases hc : comparatorCmp r x < 0
    · simp [tableInsert, hc]
    · simp only [tableInsert, hc, if_false, List.mem_cons, ih]
      tauto

theorem sorted_tableInsert {r : Record} {l : List Record}
    (hs : l.Pairwise (fun a b => comparatorCmp a b < 0))
    (hb : ∀ x ∈ l, x.sequence_number < r.sequence_number) :
    (tableInsert r l).Pairwise (fun a b => comparatorCmp a b < 0) := by
  induction l with
  | nil => simp [tableInsert]
  | cons x xs ih =>
    rw [List.pairwise_cons] at hs
    obtain ⟨hx, hxs⟩ := hs
    by_cases hc : comparatorCmp r x < 0
    · simp only [tableInsert, hc, if_true]
      rw [List.pairwise_cons]
      refine ⟨?_, ?_⟩
      · intro y hy
        rcases List.mem_cons.mp hy with rfl | hy'
        · exact hc
        · exact comparatorCmp_trans_neg hc (hx y hy')
      · rw [List.pairwise_cons]
        exact ⟨hx, hxs⟩
    · simp only [tableInsert, hc, if_false]
      rw [List.pairwise_cons]
      refine ⟨?_, ih hxs (fun y hy => hb y (List.mem_cons_of_mem _ hy))⟩
      intro y hy
      rcases mem_tableInsert.mp hy with heq | hy'
      · rw [heq]
        have hne : comparatorCmp r x ≠ 0 := by
          simp only [ne_eq, comparatorCmp_eq_zero_iff, not_and]
          intro _ hseq
          have := hb x (List.mem_cons_self _ _)
          omega
        have h1 := comparatorCmp_antisym r x
        rcases comparatorCmp_cases r x with h | h | h <;> omega
      · exact hx y hy'

theorem seekPred_self {r0 : Record} (hs : r0.sequence_number < 2 ^ 64 - 1) :
    seekPred r0.key r0 = true := by
  unfold seekPred
  rw [decide_eq_true_iff]
  unfold comparatorCmp seekSentinel
  simp only [sliceCompare_self, ne_eq, not_true_eq_false, if_false]
  have h1 : r0.sequence_number < 2 ^ 64 - 1 := hs
  simp only [h1, if_true]
  omega

theorem find?_tableInsert_self {r0 : Record} {l : List Record}
    (hb : ∀ x ∈ l, x.sequence_number < r0.sequence_number)
    (hs : r0.sequence_number < 2 ^ 64 - 1) :
    (tableInsert r0 l).find? (seekPred r0.key) = some r0 := by
  induction l with
  | nil =>
    simp [tableInsert, List.find?, seekPred_self hs]
  | cons x xs ih =>
    by_cases hc : comparatorCmp r0 x < 0
    · simp only [tableInsert, hc, if_true]
      rw [List.find?_cons_of_pos _ (seekPred_self hs)]
    · simp only [tableInsert, hc, if_false]
      have hxseq := hb x (List.mem_cons_self _ _)
      have h0 : 0 < comparatorCmp r0 x := by
        have hne : comparatorCmp r0 x ≠ 0 := by
          simp only [ne_eq, comparatorCmp_eq_zero_iff, not_and]
          intro _ hq
          omega
        rcases comparatorCmp_cases r0 x with h | h | h <;> omega
      have h0' : comparatorCmp x r0 < 0 := by
        have := comparatorCmp_antisym r0 x
        omega
      have hpx : seekPred r0.key x = false := by
        unfold seekPred
        rw [decide_eq_false_iff_not]
        intro hge
        rcases comparatorCmp_lt_zero_iff.mp h0' with hsc | ⟨he, hq⟩
        · have : comparatorCmp x (seekSentinel r0.key) < 0 := by
            rw [comparatorCmp_lt_zero_iff]
            exact Or.inl hsc
          omega
        · omega
      rw [List.find?_cons_of_neg _ (by simp [hpx])]
      exact ih (fun y hy => hb y (List.mem_cons_of_mem _ hy))

theorem getFromEntries_insert_self {r0 : Record} {l : List Record}
    (hb : ∀ x ∈ l, x.sequence_number < r0.sequence_number)
    (hs : r0.sequence_number < 2 ^ 64 - 1) :
    getFromEntries (tableInsert r0 l) r0.key =
      some (r0.sequence_number % 256, r0.value) := by
  unfold getFromEntries tableSeek
  rw [find?_tableInsert_self hb hs]
  simp [sliceCompare_self]

theorem getFromEntries_insert_other {r0 : Record} {l : List Record} {k' : Bytes}
    (hsorted : l.Pairwise (fun a b => comparatorCmp a b < 0))
    (hb : ∀ x ∈ l, x.sequence_number < r0.sequence_number)
    (hk : r0.key ≠ k') :
    getFromEntries (tableInsert r0 l) k' = getFromEntries l k' := by
  have hkz : sliceCompare k' r0.key ≠ 0 := by
    simp only [ne_eq, sliceCompare_eq_zero_iff]
    intro he
    exact hk he.symm
  induction l with
  | nil =>
    unfold getFromEntries tableSeek tableInsert
    cases hp : seekPred k' r0 with
    | false => simp [List.find?, hp]
    | true =>
      simp [List.find?, hp, hkz]
  | cons x xs ih =>
    rw [List.pairwise_cons] at hsorted
    obtain ⟨hx, hxs⟩ := hsorted
    by_cases hc : comparatorCmp r0 x < 0
    · simp only [tableInsert, hc, if_true]
      cases hp : seekPred k' r0 with
      | false =>
        unfold getFromEntries tableSeek
        rw [List.find?_cons_of_neg _ (by simp [hp])]
      | true =>
        have hnew : getFromEntries (r0 :: x :: xs) k' = none := by
          unfold getFromEntries tableSeek
          rw [List.find?_cons_of_pos _ hp]
          simp [hkz]
        rw [hnew]
        have hscr0 : sliceCompare r0.key k' = 1 := by
          unfold seekPred at hp
          have hp' : 0 ≤ comparatorCmp r0 (seekSentinel k') := of_decide_eq_true hp
          rcases sliceCompare_cases r0.key k' with h | h | h
          · exfalso
            have : comparatorCmp r0 (seekSentinel k') < 0 := by
              rw [comparatorCmp_lt_zero_iff]
              exact Or.inl h
            omega
          · exact absurd (sliceCompare_eq_zero_iff.mp h) hk
          · exact h
        unfold getFromEntries tableSeek
        cases hf : (x :: xs).find? (seekPred k') with
        | none => rfl
        | some y =>
          have hymem := List.mem_of_find?_eq_some hf
          have hyk : sliceCompare k' y.key ≠ 0 := by
            simp only [ne_eq, sliceCompare_eq_zero_iff]
            intro he
            rcases List.mem_cons.mp hymem with rfl | hyxs
            · have hky : sliceCompare k' r0.key = -1 := by
                have h2 := sliceCompare_antisym r0.key k'
                omega
              have hxr0 : comparatorCmp y r0 < 0 := by
                rw [comparatorCmp_lt_zero_iff]
                left
                rw [← he]
                exact hky
              have h3 := comparatorCmp_antisym y r0
              omega
            · have h1 : sliceCompare r0.key x.key ≤ 0 := by
                rcases comparatorCmp_lt_zero_iff.mp hc with hs | ⟨heq, _⟩
                · omega
                · rw [heq, sliceCompare_self]
              have h2 : sliceCompare x.key k' ≤ 0 := by
                rcases comparatorCmp_lt_zero_iff.mp (hx y hyxs) with hs | ⟨heq, _⟩
                · rw [← he] at hs
                  omega
                · rw [heq, ← he, sliceCompare_self]
              have := sliceCompare_trans_nonpos h1 h2
              omega
          simp [hyk]
    · simp only [tableInsert, hc, if_false]
      unfold getFromEntries tableSeek
      cases hp : seekPred k' x with
      | true =>
        rw [List.find?_cons_of_pos _ hp, List.find?_cons_of_pos _ hp]
      | false =>
        rw [List.find?_cons_of_neg _ (by simp [hp]), List.find?_cons_of_neg _ (by simp [hp])]
        have := ih hxs (fun y hy => hb y (List.mem_cons_of_mem _ hy))
        unfold getFromEntries tableSeek at this
        exact this

/-! Whole-trace invariants. -/

theorem EntryType.tag_lt (t : EntryType) : t.tag < 256 := by
  cases t <;> simp [EntryType.tag]

theorem mkSeqNum_lt_max (n : Nat) (t : EntryType) : mkSeqNum n t < 2 ^ 64 - 1 := by
  unfold mkSeqNum
  have h1 : n % 2 ^ 56 < 2 ^ 56 := Nat.mod_lt _ (by norm_num)
  have h2 := EntryType.tag_lt t
  cases t <;> simp [EntryType.tag] <;> omega

/-- The reachable-state invariant: the entry list is sorted strictly by the
comparator and all stored sequence numbers are below the next counter. -/
def goodState (st : MemTable) : Prop :=
  st.entries.Pairwise (fun a b => comparatorCmp a b < 0) ∧
  ∀ r ∈ st.entries, r.sequence_number < 256 * st.next_sequence_num

theorem applyOp_entries (st : MemTable) (op : MOp) :
    (applyOp st op).entries =
      tableInsert
        ⟨op.key, match op with | .put _ v => v | .del _ => [],
          mkSeqNum st.next_sequence_num
            (match op with | .put _ _ => .kWrite | .del _ => .kDelete)⟩
        st.entries := by
  cases op <;> rfl

theorem applyOp_next (st : MemTable) (op : MOp) :
    (applyOp st op).next_sequence_num = st.next_sequence_num + 1 := by
  cases op <;> rfl

theorem foldl_applyOp_next : ∀ (ops : List MOp) (st : MemTable),
    (ops.foldl applyOp st).next_sequence_num = st.next_sequence_num + ops.length := by
  intro ops
  induction ops with
  | nil => intro st; simp
  | cons op rest ih =>
    intro st
    simp only [List.foldl_cons, ih, applyOp_next, List.length_cons]
    omega

theorem applyOps_next (ops : List MOp) :
    (applyOps ops).next_sequence_num = ops.length := by
  unfold applyOps
  rw [foldl_applyOp_next]
  simp [MemTable.empty]

theorem goodState_insertImpl {st : MemTable} (k v : Bytes) (t : EntryType)
    (hg : goodState st) (hlt : st.next_sequence_num < 2 ^ 56) :
    goodState (insertImpl st k v t).2 := by
  obtain ⟨hsorted, hbound⟩ := hg
  have hmod : st.next_sequence_num % 2 ^ 56 = st.next_sequence_num :=
    Nat.mod_eq_of_lt hlt
  have htag := EntryType.tag_lt t
  constructor
  · show (tableInsert ⟨k, v, mkSeqNum st.next_sequence_num t⟩ st.entries).Pairwise
      (fun a b => comparatorCmp a b < 0)
    apply sorted_tableInsert hsorted
    intro x hxmem
    have := hbound x hxmem
    simp only [mkSeqNum, hmod]
    omega
  · show ∀ r ∈ tableInsert ⟨k, v, mkSeqNum st.next_sequence_num t⟩ st.entries,
      r.sequence_number < 256 * (st.next_sequence_num + 1)
    intro r hrmem
    rcases mem_tableInsert.mp hrmem with heq | hold
    · rw [heq]
      simp only [mkSeqNum, hmod]
      omega
    · have := hbound r hold
      omega

theorem goodState_applyOp {st : MemTable} (op : MOp) (hg : goodState st)
    (hlt : st.next_sequence_num < 2 ^ 56) : goodState (applyOp st op) := by
  cases op with
  | put k v => exact goodState_insertImpl k v .kWrite hg hlt
  | del k => exact goodState_insertImpl k [] .kDelete hg hlt

theorem goodState_foldl : ∀ (ops : List MOp) (st : MemTable), goodState st →
    st.next_sequence_num + ops.length ≤ 2 ^ 56 → goodState (ops.foldl applyOp st) := by
  intro ops
  induction ops with
  | nil => intro st hg _; exact hg
  | cons op rest ih =>
    intro st hg hlen
    simp only [List.length_cons] at hlen
    simp only [List.foldl_cons]
    apply ih
    · exact goodState_applyOp op hg (by omega)
    · rw [applyOp_next]
      omega

theorem goodState_applyOps (ops : List MOp) (h : ops.length ≤ 2 ^ 56) :
    goodState (applyOps ops) := by
  apply goodState_foldl ops MemTable.empty
  · exact ⟨List.Pairwise.nil, by intro r hr; simp [MemTable.empty] at hr⟩
  · simpa [MemTable.empty]

theorem specGet_append (l : List MOp) (op : MOp) (k : Bytes) :
    specGet (l ++ [op]) k =
      if op.key = k then
        (match op with
          | .put _ v => some (EntryType.kWrite.tag, v)
          | .del _ => some (EntryType.kDelete.tag, []))
      else specGet l k := by
  unfold specGet
  rw [List.reverse_append]
  simp only [List.reverse_cons, List.reverse_nil, List.nil_append, List.singleton_append,
    List.find?]
  by_cases h : op.key = k
  · cases op <;> simp_all
  · simp [h]

/-- C2: after any trace of Put/Delete operations (short enough that the 56-bit
sequence counter does not wrap), MemTable::Get returns the type tag and value
of the most recently inserted record for the key — a Delete tombstone comes
back as the kDelete tag and an empty value, not NotFound — and Get returns
NotFound (`none`) exactly when no record for the key was ever inserted. -/
theorem memtable_get_latest_wins (ops : List MOp) :
    ops.length ≤ 2 ^ 56 → ∀ k : Bytes, (applyOps ops).get k = specGet ops k := by
  induction ops using List.reverseRecOn with
  | nil => intro _ k; rfl
  | append_singleton l op ih =>
    intro h k
    have hl : l.length ≤ 2 ^ 56 := by
      rw [List.length_append] at h
      omega
    have hlt : l.length < 2 ^ 56 := by
      rw [List.length_append] at h
      simp at h
      omega
    have happ : applyOps (l ++ [op]) = applyOp (applyOps l) op := by
      unfold applyOps
      rw [List.foldl_append]
      rfl
    obtain ⟨hsorted, hbound⟩ := goodState_applyOps l hl
    have hnext : (applyOps l).next_sequence_num = l.length := applyOps_next l
    have hmod : l.length % 2 ^ 56 = l.length := Nat.mod_eq_of_lt hlt
    rw [happ, specGet_append]
    have hfresh : ∀ t : EntryType, ∀ x ∈ (applyOps l).entries,
        x.sequence_number < mkSeqNum (applyOps l).next_sequence_num t := by
      intro t x hx
      have := hbound x hx
      simp only [mkSeqNum, hnext, hmod]
      omega
    by_cases hk : op.key = k
    · rw [if_pos hk]
      rw [show (applyOp (applyOps l) op).get k = getFromEntries (applyOp (applyOps l) op).entries k from rfl]
      rw [applyOp_entries]
      rw [← hk]
      cases op with
      | put k0 v =>
        rw [getFromEntries_insert_self (hfresh _) (mkSeqNum_lt_max _ _)]
        simp [mkSeqNum, EntryType.tag, Nat.mul_add_mod]
      | del k0 =>
        rw [getFromEntries_insert_self (hfresh _) (mkSeqNum_lt_max _ _)]
        simp only [mkSeqNum, EntryType.tag]
        have hm : ((applyOps l).next_sequence_num % 2 ^ 56 * 256 + 1) % 256 = 1 := by
          omega
        rw [hm]
    · rw [if_neg hk]
      rw [show (applyOp (applyOps l) op).get k = getFromEntries (applyOp (applyOps l) op).entries k from rfl]
      rw [applyOp_entries]
      rw [getFromEntries_insert_other hsorted (hfresh _) hk]
      exact ih hl k

/-- Witness for C2: the spec's scenario-1 trace, evaluated concretely. -/
theorem memtable_get_latest_wins_witness :
    ([MOp.put [5] [97], MOp.put [5] [98], MOp.del [5], MOp.put [7] [99]].length ≤ 2 ^ 56) ∧
      (applyOps [MOp.put [5] [97], MOp.put [5] [98], MOp.del [5], MOp.put [7] [99]]).get [5] =
        specGet [MOp.put [5] [97], MOp.put [5] [98], MOp.del [5], MOp.put [7] [99]] [5] :=
  ⟨by norm_num,
    memtable_get_latest_wins [MOp.put [5] [97], MOp.put [5] [98], MOp.del [5], MOp.put [7] [99]]
      (by norm_num) [5]⟩

/-- C10: MemTable::Put and MemTable::Delete return Status::OK unconditionally;
the insertion path has no failure branch. -/
theorem put_delete_always_ok : ∀ (mt : MemTable) (k v : Bytes),
    (mt.put k v).1 = Status.ok ∧ (mt.del k).1 = Status.ok :=
  fun _ _ _ => ⟨rfl, rfl⟩

end Memtable

namespace PG

/-- A page-grouping record: a 64-bit integer key (keys are read back with
key_utils::ExtractHead64) paired with its payload, the payload abstracted to a
`Nat`. -/
abbrev Rec := Nat × Nat

/-- Records sorted in strictly ascending key order (pages and the in-memory
batch are key-sorted with at most one record per key). -/
abbrev KeySorted (l : List Rec) : Prop := l.Pairwise (fun a b => a.1 < b.1)

/-- The record-merge loop of Manager::FlattenChain
(src/page_grouping/manager_rewrite.cc, lines 469-492): merge the chain's
records (first argument, from the PageMergeIterator) with the in-memory batch
(second argument); on equal keys the in-memory record is kept and both sides
advance; afterwards each side is drained. -/
def flattenMerge : List Rec → List Rec → List Rec
  | [], recs => recs
  | pmis, [] => pmis
  | (pk, pv) :: pmis, (rk, rv) :: recs =>
    if pk = rk then (rk, rv) :: flattenMerge pmis recs
    else if pk < rk then (pk, pv) :: flattenMerge pmis ((rk, rv) :: recs)
    else (rk, rv) :: flattenMerge ((pk, pv) :: pmis) recs
termination_by pmis recs => pmis.length + recs.length

theorem lookup_cons (k a b : Nat) (l : List Rec) :
    List.lookup k ((a, b) :: l) = if a = k then some b else List.lookup k l := by
  by_cases h : a = k
  · simp [List.lookup, h]
  · have hbeq : (k == a) = false := by
      simp only [beq_eq_false_iff_ne, ne_eq]
      omega
    simp [List.lookup, h, hbeq]

theorem lookup_eq_none_of_lt {k : Nat} : ∀ {l : List Rec},
    (∀ p ∈ l, k < p.1) → List.lookup k l = none := by
  intro l
  induction l with
  | nil => intro _; rfl
  | cons p rest ih =>
    intro h
    rcases p with ⟨a, b⟩
    have h1 : k < a := h (a, b) (List.mem_cons_self _ _)
    rw [lookup_cons, if_neg (by omega)]
    exact ih (fun q hq => h q (List.mem_cons_of_mem _ hq))

theorem keySorted_cons {p : Rec} {l : List Rec} :
    KeySorted (p :: l) ↔ (∀ q ∈ l, p.1 < q.1) ∧ KeySorted l :=
  List.pairwise_cons

theorem flattenMerge_nil_left (recs : List Rec) : flattenMerge [] recs = recs := by
  simp [flattenMerge]

theorem flattenMerge_cons_nil (p : Rec) (ps : List Rec) :
    flattenMerge (p :: ps) [] = p :: ps := by
  simp [flattenMerge]

theorem flattenMerge_eq_key (pk pv rv : Nat) (pmis recs : List Rec) :
    flattenMerge ((pk, pv) :: pmis) ((pk, rv) :: recs) =
      (pk, rv) :: flattenMerge pmis recs := by
  simp [flattenMerge]

theorem flattenMerge_key_lt {pk rk : Nat} (pv rv : Nat) (pmis recs : List Rec)
    (h : pk < rk) :
    flattenMerge ((pk, pv) :: pmis) ((rk, rv) :: recs) =
      (pk, pv) :: flattenMerge pmis ((rk, rv) :: recs) := by
  have h1 : ¬ pk = rk := by omega
  simp [flattenMerge, h1, h]

theorem flattenMerge_key_gt {pk rk : Nat} (pv rv : Nat) (pmis recs : List Rec)
    (h : rk < pk) :
    flattenMerge ((pk, pv) :: pmis) ((rk, rv) :: recs) =
      (rk, rv) :: flattenMerge ((pk, pv) :: pmis) recs := by
  have h1 : ¬ pk = rk := by omega
  have h2 : ¬ pk < rk := by omega
  simp [flattenMerge, h1, h2]

theorem mem_flattenMerge : ∀ {pmis recs : List Rec} {r : Rec},
    r ∈ flattenMerge pmis recs → r ∈ pmis ∨ r ∈ recs := by
  intro pmis recs
  induction pmis, recs using flattenMerge.induct with
  | case1 recs =>
    intro r h
    rw [flattenMerge_nil_left] at h
    exact Or.inr h
  | case2 pmis hne =>
    rcases pmis with _ | ⟨p, ps⟩
    · exact (hne rfl).elim
    · intro r h
      rw [flattenMerge_cons_nil] at h
      exact Or.inl h
  | case3 pv pmis rk rv recs ih =>
    intro r h
    rw [flattenMerge_eq_key] at h
    rcases List.mem_cons.mp h with rfl | h1
    · exact Or.inr (List.mem_cons_self _ _)
    · rcases ih h1 with h2 | h2
      · exact Or.inl (List.mem_cons_of_mem _ h2)
      · exact Or.inr (List.mem_cons_of_mem _ h2)
  | case4 pk pv pmis rk rv recs hne hlt ih =>
    intro r h
    rw [flattenMerge_key_lt _ _ _ _ hlt] at h
    rcases List.mem_cons.mp h with rfl | h1
    · exact Or.inl (List.mem_cons_self _ _)
    · rcases ih h1 with h2 | h2
      · exact Or.inl (List.mem_cons_of_mem _ h2)
      · exact Or.inr h2
  | case5 pk pv pmis rk rv recs hne hnlt ih =>
    intro r h
    rw [flattenMerge_key_gt _ _ _ _ (by omega)] at h
    rcases List.mem_cons.mp h with rfl | h1
    · exact Or.inr (List.mem_cons_self _ _)
    · rcases ih h1 with h2 | h2
      · exact Or.inl h2
      · exact Or.inr (List.mem_cons_of_mem _ h2)

theorem keySorted_flattenMerge : ∀ {pmis recs : List Rec},
    KeySorted pmis → KeySorted recs → KeySorted (flattenMerge pmis recs) := by
  intro pmis recs
  induction pmis, recs using flattenMerge.induct with
  | case1 recs =>
    intro _ hb
    rw [flattenMerge_nil_left]
    exact hb
  | case2 pmis hne =>
    rcases pmis with _ | ⟨p, ps⟩
    · exact (hne rfl).elim
    · intro ha _
      rw [flattenMerge_cons_nil]
      exact ha
  | case3 pv pmis rk rv recs ih =>
    intro ha hb
    rw [keySorted_cons] at ha hb
    rw [flattenMerge_eq_key, keySorted_cons]
    refine ⟨?_, ih ha.2 hb.2⟩
    intro y hy
    rcases mem_flattenMerge hy with h1 | h1
    · exact ha.1 y h1
    · exact hb.1 y h1
  | case4 pk pv pmis rk rv recs hne hlt ih =>
    intro ha hb
    rw [keySorted_cons] at ha
    rw [flattenMerge_key_lt _ _ _ _ hlt, keySorted_cons]
    refine ⟨?_, ih ha.2 hb⟩
    intro y hy
    rcases mem_flattenMerge hy with h1 | h1
    · exact ha.1 y h1
    · rcases List.mem_cons.mp h1 with rfl | h2
      · exact hlt
      · rw [keySorted_cons] at hb
        have h3 : rk < y.1 := hb.1 y h2
        exact (show pk < y.1 by omega)
  | case5 pk pv pmis rk rv recs hne hnlt ih =>
    intro ha hb
    rw [keySorted_cons] at hb
    rw [flattenMerge_key_gt _ _ _ _ (by omega), keySorted_cons]
    refine ⟨?_, ih ha hb.2⟩
    intro y hy
    rcases mem_flattenMerge hy with h1 | h1
    · rcases List.mem_cons.mp h1 with rfl | h2
      · exact (show rk < pk by omega)
      · rw [keySorted_cons] at ha
        have h3 : pk < y.1 := ha.1 y h2
        exact (show rk < y.1 by omega)
    · exact hb.1 y h1

theorem lookup_flattenMerge : ∀ {pmis recs : List Rec},
    KeySorted pmis → KeySorted recs → ∀ k : Nat,
      List.lookup k (flattenMerge pmis recs) =
        ((List.lookup k recs).orElse (fun _ => List.lookup k pmis)) := by
  intro pmis recs
  induction pmis, recs using flattenMerge.induct with
  | case1 recs =>
    intro _ _ k
    rw [flattenMerge_nil_left]
    rcases hcase : List.lookup k recs with _ | v
    · rfl
    · rfl
  | case2 pmis hne =>
    rcases pmis with _ | ⟨p, ps⟩
    · exact (hne rfl).elim
    · intro _ _ k
      rw [flattenMerge_cons_nil]
      rfl
  | case3 pv pmis rk rv recs ih =>
    intro ha hb k
    rw [keySorted_cons] at ha hb
    rw [flattenMerge_eq_key, lookup_cons, lookup_cons k rk rv recs,
      lookup_cons k rk pv pmis]
    by_cases hk : rk = k
    · simp only [if_pos hk]
      rfl
    · simp only [if_neg hk]
      exact ih ha.2 hb.2 k
  | case4 pk pv pmis rk rv recs hne hlt ih =>
    intro ha hb k
    rw [keySorted_cons] at ha
    rw [flattenMerge_key_lt _ _ _ _ hlt, lookup_cons]
    by_cases hk : pk = k
    · rw [if_pos hk]
      have hrec : List.lookup k ((rk, rv) :: recs) = none := by
        apply lookup_eq_none_of_lt
        intro p hp
        rcases List.mem_cons.mp hp with rfl | h2
        · exact (show k < rk by omega)
        · rw [keySorted_cons] at hb
          have h3 : rk < p.1 := hb.1 p h2
          exact (show k < p.1 by omega)
      rw [hrec, lookup_cons k pk pv pmis, if_pos hk]
      rfl
    · rw [if_neg hk, ih ha.2 hb k, lookup_cons k pk pv pmis, if_neg hk]
  | case5 pk pv pmis rk rv recs hne hnlt ih =>
    intro ha hb k
    rw [keySorted_cons] at hb
    rw [flattenMerge_key_gt _ _ _ _ (by omega), lookup_cons]
    by_cases hk : rk = k
    · rw [if_pos hk, lookup_cons k rk rv recs, if_pos hk]
      rfl
    · rw [if_neg hk, ih ha hb.2 k, lookup_cons k rk rv recs, if_neg hk]

/-- C4: the record list built by the FlattenChain merge loop is the
key-ascending merge of the disk chain's records and the sorted in-memory
batch: it is strictly key-sorted (so no key is duplicated), and the record
stored for any key is the in-memory batch's record when the batch contains the
key (newest wins) and the disk record otherwise, with no record lost. -/
theorem flattenChain_merge_spec (disk batch : List Rec)
    (hd : KeySorted disk) (hb : KeySorted batch) :
    KeySorted (flattenMerge disk batch) ∧
    ∀ k : Nat, List.lookup k (flattenMerge disk batch) =
      ((List.lookup k batch).orElse (fun _ => List.lookup k disk)) :=
  ⟨keySorted_flattenMerge hd hb, lookup_flattenMerge hd hb⟩

/-- Witness for C4: the spec's scenario-6 data, evaluated concretely. -/
theorem flattenChain_merge_spec_witness :
    (KeySorted [(1000, 0), (1010, 1)] ∧ KeySorted [(1010, 11), (1020, 2)]) ∧
      (KeySorted (flattenMerge [(1000, 0), (1010, 1)] [(1010, 11), (1020, 2)]) ∧
        ∀ k : Nat, List.lookup k (flattenMerge [(1000, 0), (1010, 1)] [(1010, 11), (1020, 2)]) =
          ((List.lookup k [(1010, 11), (1020, 2)]).orElse
            (fun _ => List.lookup k [(1000, 0), (1010, 1)]))) :=
  ⟨⟨by decide, by decide⟩,
    flattenChain_merge_spec [(1000, 0), (1010, 1)] [(1010, 11), (1020, 2)]
      (by decide) (by decide)⟩

/-- The state of a PagePlusRecordMerger
(src/page_grouping/manager_rewrite.cc, lines 79-128): the records left in the
page iterator `pmi_` and the records left in the in-memory iterator
`[it_, it_end_)`, both in ascending key order. -/
structure MergerState where
  pmi : List Rec
  mem : List Rec
deriving DecidableEq, Repr

/-- PagePlusRecordMerger::HasPageRecords. -/
def hasPageRecords (s : MergerState) : Bool := !s.pmi.isEmpty

/-- PagePlusRecordMerger::HasRecords. -/
def hasRecords (s : MergerState) : Bool := hasPageRecords s || !s.mem.isEmpty

/-- PagePlusRecordMerger::GetNext (manager_rewrite.cc, lines 88-120): if one
side is exhausted take from the other; otherwise take the record with the
smaller key, preferring the in-memory record and advancing both sides when the
keys are equal. `none` models the asserted-unreachable empty case. -/
def getNext (s : MergerState) : Option (Rec × MergerState) :=
  match s.pmi, s.mem with
  | [], [] => none
  | [], r :: mem => some (r, ⟨[], mem⟩)
  | p :: pmi, [] => some (p, ⟨pmi, []⟩)
  | (pk, pv) :: pmi, (ik, iv) :: mem =>
    if ik ≤ pk then
      some ((ik, iv), ⟨if ik = pk then pmi else (pk, pv) :: pmi, mem⟩)
    else
      some ((pk, pv), ⟨pmi, (ik, iv) :: mem⟩)

theorem getNext_size : ∀ {s : MergerState} {r : Rec} {s' : MergerState},
    getNext s = some (r, s') →
      s'.pmi.length + s'.mem.length < s.pmi.length + s.mem.length := by
  rintro ⟨pmi, mem⟩ r s' h
  match pmi, mem with
  | [], [] => simp [getNext] at h
  | [], q :: mem =>
    simp only [getNext, Option.some.injEq, Prod.mk.injEq] at h
    rw [← h.2]
    simp only [List.length_nil, List.length_cons]
    omega
  | p :: pmi, [] =>
    simp only [getNext, Option.some.injEq, Prod.mk.injEq] at h
    rw [← h.2]
    simp only [List.length_nil, List.length_cons]
    omega
  | (pk, pv) :: pmi, (ik, iv) :: mem =>
    simp only [getNext] at h
    split_ifs at h with h1 h2 <;>
      · simp only [Option.some.injEq, Prod.mk.injEq] at h
        rw [← h.2]
        simp only [List.length_cons]
        omega

/-- Repeatedly call GetNext until the merger runs out of records; the merged
output stream. -/
def drain (s : MergerState) : List Rec :=
  match h : getNext s with
  | none => []
  | some (r, s') => r :: drain s'
termination_by s.pmi.length + s.mem.length
decreasing_by exact getNext_size h

theorem drain_none {s : MergerState} (h : getNext s = none) : drain s = [] := by
  rw [drain]
  split
  · rfl
  · rename_i r s2 heq
    rw [h] at heq
    simp at heq

theorem drain_step {s : MergerState} {r : Rec} {s' : MergerState}
    (h : getNext s = some (r, s')) : drain s = r :: drain s' := by
  rw [drain]
  split
  · rename_i heq
    rw [h] at heq
    simp at heq
  · rename_i r2 s2 heq
    rw [h] at heq
    simp only [Option.some.injEq, Prod.mk.injEq] at heq
    rw [← heq.1, ← heq.2]

theorem drain_nil_mem : ∀ (mem : List Rec), drain ⟨[], mem⟩ = mem := by
  intro mem
  induction mem with
  | nil => exact drain_none rfl
  | cons q mem ih =>
    rw [drain_step (show getNext ⟨[], q :: mem⟩ = some (q, ⟨[], mem⟩) from rfl), ih]

theorem drain_pmi_nil : ∀ (pmi : List Rec), drain ⟨pmi, []⟩ = pmi := by
  intro pmi
  induction pmi with
  | nil => exact drain_none rfl
  | cons p pmi ih =>
    rw [drain_step (show getNext ⟨p :: pmi, []⟩ = some (p, ⟨pmi, []⟩) from rfl), ih]

/-- Draining the merger produces exactly the FlattenChain merge of the two
record streams. -/
theorem drain_eq_flattenMerge : ∀ (pmis mems : List Rec),
    drain ⟨pmis, mems⟩ = flattenMerge pmis mems := by
  intro pmis mems
  induction pmis, mems using flattenMerge.induct with
  | case1 mems =>
    rw [flattenMerge_nil_left]
    exact drain_nil_mem mems
  | case2 pmis hne =>
    rcases pmis with _ | ⟨p, ps⟩
    · exact (hne rfl).elim
    · rw [flattenMerge_cons_nil]
      exact drain_pmi_nil _
  | case3 pv pmis rk rv mems ih =>
    have hg : getNext ⟨(rk, pv) :: pmis, (rk, rv) :: mems⟩ =
        some ((rk, rv), ⟨pmis, mems⟩) := by
      simp [getNext]
    rw [flattenMerge_eq_key, drain_step hg, ih]
  | case4 pk pv pmis rk rv mems hne hlt ih =>
    have hg : getNext ⟨(pk, pv) :: pmis, (rk, rv) :: mems⟩ =
        some ((pk, pv), ⟨pmis, (rk, rv) :: mems⟩) := by
      have h1 : ¬ rk ≤ pk := by omega
      simp [getNext, h1]
    rw [flattenMerge_key_lt _ _ _ _ hlt, drain_step hg, ih]
  | case5 pk pv pmis rk rv mems hne hnlt ih =>
    have hg : getNext ⟨(pk, pv) :: pmis, (rk, rv) :: mems⟩ =
        some ((rk, rv), ⟨(pk, pv) :: pmis, mems⟩) := by
      have h1 : rk ≤ pk := by omega
      have h2 : ¬ rk = pk := by omega
      simp [getNext, h1, h2]
    rw [flattenMerge_key_gt _ _ _ _ (by omega), drain_step hg, ih]

/-- C7: when both the page iterator and the in-memory iterator hold records,
GetNext returns the record with the smaller key; on equal keys it returns the
in-memory record and advances both iterators; and draining the merger yields a
key-ascending stream in which the in-memory record wins every key
collision. -/
theorem pagePlusRecordMerger_getNext_spec (pk pv ik iv : Nat) (pmi mem : List Rec)
    (hp : KeySorted ((pk, pv) :: pmi)) (hm : KeySorted ((ik, iv) :: mem)) :
    (∀ r : Rec, ∀ s' : MergerState,
      getNext ⟨(pk, pv) :: pmi, (ik, iv) :: mem⟩ = some (r, s') → r.1 = min ik pk) ∧
    (ik = pk →
      getNext ⟨(pk, pv) :: pmi, (ik, iv) :: mem⟩ = some ((ik, iv), ⟨pmi, mem⟩)) ∧
    (ik < pk →
      getNext ⟨(pk, pv) :: pmi, (ik, iv) :: mem⟩ =
        some ((ik, iv), ⟨(pk, pv) :: pmi, mem⟩)) ∧
    (pk < ik →
      getNext ⟨(pk, pv) :: pmi, (ik, iv) :: mem⟩ =
        some ((pk, pv), ⟨pmi, (ik, iv) :: mem⟩)) ∧
    KeySorted (drain ⟨(pk, pv) :: pmi, (ik, iv) :: mem⟩) ∧
    (∀ k : Nat, List.lookup k (drain ⟨(pk, pv) :: pmi, (ik, iv) :: mem⟩) =
      ((List.lookup k ((ik, iv) :: mem)).orElse
        (fun _ => List.lookup k ((pk, pv) :: pmi)))) := by
  refine ⟨?_, ?_, ?_, ?_, ?_, ?_⟩
  · intro r s' h
    simp only [getNext] at h
    split_ifs at h with h1 <;>
      · simp only [Option.some.injEq, Prod.mk.injEq] at h
        rw [← h.1]
        simp
        omega
  · intro h
    simp only [getNext, if_pos (le_of_eq h), if_pos h]
  · intro h
    have h1 : ik ≤ pk := by omega
    have h2 : ¬ ik = pk := by omega
    simp only [getNext, h1, if_true, h2, if_false]
  · intro h
    have h1 : ¬ ik ≤ pk := by omega
    simp only [getNext, h1, if_false]
  · rw [drain_eq_flattenMerge]
    exact keySorted_flattenMerge hp hm
  · intro k
    rw [drain_eq_flattenMerge]
    exact lookup_flattenMerge hp hm k

/-- Witness for C7: a concrete two-sided state with a key collision. -/
theorem pagePlusRecordMerger_getNext_spec_witness :
    (KeySorted [(3, 30), (7, 70)] ∧ KeySorted [(3, 31), (5, 50)]) ∧
      ((∀ r : Rec, ∀ s' : MergerState,
        getNext ⟨[(3, 30), (7, 70)], [(3, 31), (5, 50)]⟩ = some (r, s') → r.1 = min 3 3) ∧
      (3 = 3 →
        getNext ⟨[(3, 30), (7, 70)], [(3, 31), (5, 50)]⟩ =
          some ((3, 31), ⟨[(7, 70)], [(5, 50)]⟩)) ∧
      (3 < 3 →
        getNext ⟨[(3, 30), (7, 70)], [(3, 31), (5, 50)]⟩ =
          some ((3, 31), ⟨[(3, 30), (7, 70)], [(5, 50)]⟩)) ∧
      (3 < 3 →
        getNext ⟨[(3, 30), (7, 70)], [(3, 31), (5, 50)]⟩ =
          some ((3, 30), ⟨[(7, 70)], [(3, 31), (5, 50)]⟩)) ∧
      KeySorted (drain ⟨[(3, 30), (7, 70)], [(3, 31), (5, 50)]⟩) ∧
      (∀ k : Nat, List.lookup k (drain ⟨[(3, 30), (7, 70)], [(3, 31), (5, 50)]⟩) =
        ((List.lookup k [(3, 31), (5, 50)]).orElse
          (fun _ => List.lookup k [(3, 30), (7, 70)])))) :=
  ⟨⟨by decide, by decide⟩,
    pagePlusRecordMerger_getNext_spec 3 30 3 31 [(7, 70)] [(5, 50)]
      (by decide) (by decide)⟩

/-- One page produced by Manager::LoadIntoNewPages
(src/page_grouping/manager_load.cc, lines 328-404): its lower and upper
boundary keys, the records put into it, and the sequence number stamped on it
by SegmentWrap::SetSequenceNumber. -/
structure PageOut where
  lower : Nat
  upper : Nat
  records : List Rec
  seqnum : Nat
deriving DecidableEq, Repr

/-- The upper bound used for a page: the caller's upper bound when no records
remain, the next record's key otherwise (`page_end_idx == num_records ?
upper_bound : page_end->first`). -/
def upperOf (ub : Nat) : List Rec → Nat
  | [] => ub
  | r :: _ => r.1

/-- The page-filling loop of Manager::LoadIntoNewPages: while at least
`records_per_page_goal` records remain, emit a full page stamped with the
operation's sequence number; a trailing shorter run is emitted as a final page
stamped with sequence number 0 (manager_load.cc line 383). `lower` is the
current page's lower bound (the caller's lower bound for the first page, the
page's first key afterwards). The `0 < goal` guard only rules out the
infinite loop the source would enter with a zero goal. -/
def loadIntoNewPagesAux (goal seq ub : Nat) (recs : List Rec) (lower : Nat) :
    List PageOut :=
  if h : 0 < goal ∧ goal ≤ recs.length then
    { lower := lower, upper := upperOf ub (recs.drop goal),
      records := recs.take goal, seqnum := seq } ::
      loadIntoNewPagesAux goal seq ub (recs.drop goal) (upperOf ub (recs.drop goal))
  else if recs.isEmpty then []
  else [{ lower := lower, upper := ub, records := recs, seqnum := 0 }]
termination_by recs.length
decreasing_by
  simp only [List.length_drop]
  omega

/-- Manager::LoadIntoNewPages, reduced to the per-page effects the claims
examine. -/
def loadIntoNewPages (goal seq lower_bound upper_bound : Nat) (recs : List Rec) :
    List PageOut :=
  loadIntoNewPagesAux goal seq upper_bound recs lower_bound

theorem loadIntoNewPagesAux_ne_nil (goal seq ub : Nat) (recs : List Rec)
    (lower : Nat) (h : recs ≠ []) :
    loadIntoNewPagesAux goal seq ub recs lower ≠ [] := by
  rw [loadIntoNewPagesAux]
  split
  · simp
  · rw [if_neg (by simpa using h)]
    simp

theorem loadIntoNewPagesAux_stamps (goal seq ub : Nat) (hg : 0 < goal) :
    ∀ (recs : List Rec) (lower : Nat),
      (∀ p ∈ loadIntoNewPagesAux goal seq ub recs lower,
        (p.records.length = goal ∧ p.seqnum = seq) ∨
        (p.records.length < goal ∧ p.seqnum = 0)) ∧
      (recs.length % goal ≠ 0 →
        ∃ p, (loadIntoNewPagesAux goal seq ub recs lower).getLast? = some p ∧
          p.records.length = recs.length % goal ∧ p.seqnum = 0) := by
  intro recs lower
  induction recs, lower using loadIntoNewPagesAux.induct goal seq ub with
  | case1 recs lower h ih =>
    rw [loadIntoNewPagesAux, dif_pos h]
    have hlen : (recs.drop goal).length = recs.length - goal := by
      simp
    have hsplit : recs.length = goal + (recs.drop goal).length := by
      omega
    constructor
    · intro p hp
      rcases List.mem_cons.mp hp with rfl | hp2
      · left
        constructor
        · simp only [List.length_take]
          omega
        · rfl
      · exact ih.1 p hp2
    · intro hmod
      have hmod2 : (recs.drop goal).length % goal ≠ 0 := by
        rw [hsplit, Nat.add_mod_left] at hmod
        exact hmod
      obtain ⟨p, hp1, hp2, hp3⟩ := ih.2 hmod2
      refine ⟨p, ?_, ?_, hp3⟩
      · have hne : loadIntoNewPagesAux goal seq ub (recs.drop goal)
            (upperOf ub (recs.drop goal)) ≠ [] := by
          apply loadIntoNewPagesAux_ne_nil
          intro hnil
          rw [hnil] at hmod2
          simp at hmod2
        rcases hcase : loadIntoNewPagesAux goal seq ub (recs.drop goal)
            (upperOf ub (recs.drop goal)) with _ | ⟨q, qs⟩
        · exact absurd hcase hne
        · rw [hcase] at hp1
          rw [List.getLast?_cons_cons]
          exact hp1
      · rw [hp2, hsplit, Nat.add_mod_left]
  | case2 recs lower h1 h2 =>
    rw [loadIntoNewPagesAux, dif_neg h1, if_pos h2]
    constructor
    · intro p hp
      simp at hp
    · intro hmod
      exfalso
      have hempty : recs = [] := List.isEmpty_iff.mp (by simpa using h2)
      rw [hempty] at hmod
      simp at hmod
  | case3 recs lower h1 h2 =>
    rw [loadIntoNewPagesAux, dif_neg h1, if_neg h2]
    have hlt : recs.length < goal := by
      rcases Nat.lt_or_ge recs.length goal with h | h
      · exact h
      · exact absurd ⟨hg, h⟩ h1
    constructor
    · intro p hp
      rcases List.mem_cons.mp hp with rfl | hp2
      · right
        exact ⟨hlt, rfl⟩
      · simp at hp2
    · intro _
      refine ⟨{ lower := lower, upper := ub, records := recs, seqnum := 0 }, ?_, ?_, rfl⟩
      · simp
      · rw [Nat.mod_eq_of_lt hlt]

/-- C9: LoadIntoNewPages stamps every full page (exactly
records_per_page_goal records) with the operation's sequence number, but
stamps the trailing shorter page — which exists whenever the goal does not
divide the record count — with sequence number 0 instead. -/
theorem loadIntoNewPages_trailing_page_seq_zero (goal seq lb ub : Nat)
    (recs : List Rec) (hg : 0 < goal) :
    (∀ p ∈ loadIntoNewPages goal seq lb ub recs,
      (p.records.length = goal ∧ p.seqnum = seq) ∨
      (p.records.length < goal ∧ p.seqnum = 0)) ∧
    (recs.length % goal ≠ 0 →
      ∃ p, (loadIntoNewPages goal seq lb ub recs).getLast? = some p ∧
        p.records.length = recs.length % goal ∧ p.seqnum = 0) :=
  loadIntoNewPagesAux_stamps goal seq ub hg recs lb

/-- Witness for C9: three records with a goal of two; the full page carries
sequence number 7, the trailing one-record page carries 0. -/
theorem loadIntoNewPages_trailing_page_seq_zero_witness :
    (0 < 2) ∧
      ((∀ p ∈ loadIntoNewPages 2 7 0 100 [(1, 10), (2, 20), (3, 30)],
        (p.records.length = 2 ∧ p.seqnum = 7) ∨
        (p.records.length < 2 ∧ p.seqnum = 0)) ∧
      (([(1, 10), (2, 20), (3, 30)] : List Rec).length % 2 ≠ 0 →
        ∃ p, (loadIntoNewPages 2 7 0 100 [(1, 10), (2, 20), (3, 30)]).getLast? = some p ∧
          p.records.length = ([(1, 10), (2, 20), (3, 30)] : List Rec).length % 2 ∧
          p.seqnum = 0)) :=
  ⟨by norm_num,
    loadIntoNewPages_trailing_page_seq_zero 2 7 0 100 [(1, 10), (2, 20), (3, 30)]
      (by norm_num)⟩

end PG

namespace DB

open Memtable (Bytes sliceCompare)

/-- Page-format constants consumed by the reorganization
(Page::UsableSize and Page::PerRecordMetadataSize; the page codec is external
to the sources, so the constants are left abstract). -/
structure PageConsts where
  usableSize : Nat
  perRecordMetadataSize : Nat
deriving DecidableEq, Repr

/-- The options DBImpl::ReorganizeOverflowChain reads:
options_.max_reorg_fanout and options_.key_hints record/key sizes. -/
structure ReorgOptions where
  max_reorg_fanout : Nat
  record_size : Nat
  key_size : Nat
deriving DecidableEq, Repr

/-- One fixed page of an overflow chain, as the reorganization observes it:
its records in ascending key order, the length of its stored key prefix, and
its lower/upper boundary keys. -/
structure ChainPage where
  records : List (Bytes × Bytes)
  keyPrefixLen : Nat
  lowerBoundary : Bytes
  upperBoundary : Bytes
deriving DecidableEq, Repr

/-- Modelled from the spec: KeyDistHints (include/llsm/options.h is not among
the sources). `records_per_page` applies the fill percentage to the usable
page size and divides by the per-record footprint; `num_pages` is
num_keys / records_per_page rounded up. -/
structure KeyDistHints where
  num_keys : Nat
  record_size : Nat
  key_size : Nat
  page_fill_pct : Nat
deriving DecidableEq, Repr

/-- Modelled from the spec: records that fit on a page at the given fill
percentage. -/
def KeyDistHints.records_per_page (c : PageConsts) (d : KeyDistHints) : Nat :=
  c.usableSize * d.page_fill_pct / 100 / (d.record_size + c.perRecordMetadataSize)

/-- Modelled from the spec: `num_pages = ceil(num_keys / records_per_page)`. -/
def KeyDistHints.num_pages (c : PageConsts) (d : KeyDistHints) : Nat :=
  (d.num_keys + d.records_per_page c - 1) / d.records_per_page c

/-- The fill-percentage adjustment loop (db_impl_reorg.cc lines 95-104):
`while (dist.num_pages() > max_reorg_fanout) ++dist.page_fill_pct;`.
The `page_fill_pct < 100` guard only bounds the recursion; the source comment
argues the loop never passes 100%, and the theorems prove the guard is never
the exit point under their hypotheses. -/
def adjustFillPct (c : PageConsts) (fanout : Nat) (d : KeyDistHints) : KeyDistHints :=
  if d.num_pages c ≤ fanout then d
  else if h : d.page_fill_pct < 100 then
    adjustFillPct c fanout { d with page_fill_pct := d.page_fill_pct + 1 }
  else d
termination_by 100 - d.page_fill_pct
decreasing_by
  omega

/-- Sorted insertion by Slice key order, for the merge model. -/
def sortedInsert (r : Bytes × Bytes) : List (Bytes × Bytes) → List (Bytes × Bytes)
  | [] => [r]
  | x :: xs => if sliceCompare r.1 x.1 ≤ 0 then r :: x :: xs else x :: sortedInsert r xs

/-- Sort a record list into ascending key order. -/
def sortByKey : List (Bytes × Bytes) → List (Bytes × Bytes)
  | [] => []
  | x :: xs => sortedInsert x (sortByKey xs)

/-- Modelled from the spec: PageMergeIterator (db/merge_iterators.h is not
among the sources) emits every record of the chain's pages in ascending key
order; embedded as sorting the concatenation of the pages' record lists. -/
def pmiRecords (chain : List ChainPage) : List (Bytes × Bytes) :=
  sortByKey (chain.map (fun p => p.records)).join

/-- The boundary keys collected in the first pass (db_impl_reorg.cc lines
114-119): the key of every `records_per_page`-th record, skipping index 0. -/
def boundaryKeys (recs : List (Bytes × Bytes)) (rpp : Nat) : List Bytes :=
  (recs.enum.filter (fun p => decide (p.1 % rpp = 0 ∧ 0 < p.1))).map (fun p => p.2.1)

/-- A buffer-pool frame as the effect log identifies it: the i-th link of the
fixed chain, or the j-th freshly allocated page. -/
inductive FrameRef where
  | old (i : Nat)
  | fresh (j : Nat)
deriving DecidableEq, Repr

/-- The externally visible effects of DBImpl::ReorganizeOverflowChain: the
returned status, every UnfixPage call with its is_dirty flag, the number of
in-memory pages built (`new_num_pages`), the number of AllocatePage calls, the
model insertions (lower boundaries, in commit order), and the number of page
images written (memcpy of new pages plus memset of leaked pages). -/
structure ReorgResult where
  status : Status
  unfixes : List (FrameRef × Bool)
  newNumPages : Nat
  allocations : Nat
  modelInserts : List Bytes
  pageWrites : Nat
deriving DecidableEq, Repr

/-- The initial KeyDistHints of the reorganization (db_impl_reorg.cc lines
68-93): the effective record size after prefix sharing and the conservative
key-count estimate from full chain pages. -/
def reorgInitialHints (c : PageConsts) (opts : ReorgOptions) (page0 : ChainPage)
    (rest : List ChainPage) (page_fill_pct : Nat) : KeyDistHints :=
  { num_keys := (page0 :: rest).length *
      ((c.usableSize - 2 * opts.record_size) /
        (opts.record_size - page0.keyPrefixLen + c.perRecordMetadataSize)),
    record_size := opts.record_size - page0.keyPrefixLen,
    key_size := opts.key_size,
    page_fill_pct := page_fill_pct }

/-- The planning and commit phases of DBImpl::ReorganizeOverflowChain on a
nonempty chain (db_impl_reorg.cc lines 68-204): adjust the fill percentage,
count records and boundaries over the chain merge, and commit the
`new_num_pages` pages backwards, zeroing leaked pages. -/
def reorgMain (c : PageConsts) (opts : ReorgOptions) (page0 : ChainPage)
    (rest : List ChainPage) (page_fill_pct : Nat) : ReorgResult :=
  let d1 := adjustFillPct c opts.max_reorg_fanout
    (reorgInitialHints c opts page0 rest page_fill_pct)
  let records_per_page := d1.records_per_page c
  let recs := pmiRecords (page0 :: rest)
  let record_count := recs.length
  let boundary_keys :=
    page0.lowerBoundary :: (boundaryKeys recs records_per_page ++ [page0.upperBoundary])
  let old_num_pages := (page0 :: rest).length
  let new_num_pages := ({ d1 with num_keys := record_count } : KeyDistHints).num_pages c
  { status := .ok,
    unfixes :=
      ((List.range new_num_pages).reverse.map (fun i =>
        ((if i < old_num_pages then FrameRef.old i
          else FrameRef.fresh (i - old_num_pages)), true))) ++
      (List.range (old_num_pages - new_num_pages)).map
        (fun j => (FrameRef.old (new_num_pages + j), true)),
    newNumPages := new_num_pages,
    allocations := new_num_pages - old_num_pages,
    modelInserts := (List.range new_num_pages).reverse.map
      (fun i => boundary_keys.getD i []),
    pageWrites := new_num_pages + (old_num_pages - new_num_pages) }

/-- DBImpl::ReorganizeOverflowChain (src/db/db_impl_reorg.cc, lines 38-205)
over an already-fixed chain: the length-1 no-op, the too-long failure, and the
planning/commit path, reduced to its effect log. The empty-chain case is
unreachable (FixOverflowChain returns at least the head page). -/
def reorganizeOverflowChain (c : PageConsts) (opts : ReorgOptions)
    (chain : List ChainPage) (page_fill_pct : Nat) : ReorgResult :=
  if chain.length = 1 then
    { status := .ok, unfixes := [(.old 0, false)], newNumPages := 0,
      allocations := 0, modelInserts := [], pageWrites := 0 }
  else if chain.length > opts.max_reorg_fanout then
    { status := .invalidArgument,
      unfixes := (List.range chain.length).map (fun i => (.old i, false)),
      newNumPages := 0, allocations := 0, modelInserts := [], pageWrites := 0 }
  else
    match chain with
    | [] =>
      { status := .ok, unfixes := [], newNumPages := 0, allocations := 0,
        modelInserts := [], pageWrites := 0 }
    | page0 :: rest => reorgMain c opts page0 rest page_fill_pct

theorem adjustFillPct_fields (c : PageConsts) (fanout : Nat) :
    ∀ d : KeyDistHints, (adjustFillPct c fanout d).num_keys = d.num_keys ∧
      (adjustFillPct c fanout d).record_size = d.record_size := by
  intro d
  induction d using adjustFillPct.induct c fanout with
  | case1 d h =>
    rw [adjustFillPct, if_pos h]
    exact ⟨rfl, rfl⟩
  | case2 d h1 h2 ih =>
    rw [adjustFillPct, if_neg h1, dif_pos h2]
    exact ih
  | case3 d h1 h2 =>
    rw [adjustFillPct, if_neg h1, dif_neg h2]
    exact ⟨rfl, rfl⟩

theorem adjustFillPct_num_pages_le (c : PageConsts) (fanout : Nat) :
    ∀ d : KeyDistHints, d.page_fill_pct ≤ 100 →
      ({ d with page_fill_pct := 100 } : KeyDistHints).num_pages c ≤ fanout →
      (adjustFillPct c fanout d).num_pages c ≤ fanout := by
  intro d
  induction d using adjustFillPct.induct c fanout with
  | case1 d h =>
    intro _ _
    rw [adjustFillPct, if_pos h]
    exact h
  | case2 d h1 h2 ih =>
    intro hle h100
    rw [adjustFillPct, if_neg h1, dif_pos h2]
    apply ih
    · show d.page_fill_pct + 1 ≤ 100
      omega
    · exact h100
  | case3 d h1 h2 =>
    intro hle h100
    exfalso
    apply h1
    have hfill : d.page_fill_pct = 100 := by omega
    have heq : ({ d with page_fill_pct := 100 } : KeyDistHints) = d := by
      rw [← hfill]
    rw [heq] at h100
    exact h100

theorem num_pages_mono_num_keys (c : PageConsts) (d : KeyDistHints) {a b : Nat}
    (h : a ≤ b) :
    ({ d with num_keys := a } : KeyDistHints).num_pages c ≤
      ({ d with num_keys := b } : KeyDistHints).num_pages c := by
  show (a + d.records_per_page c - 1) / d.records_per_page c ≤
    (b + d.records_per_page c - 1) / d.records_per_page c
  exact Nat.div_le_div_right (by omega)

theorem ceil_bound_aux {len mpp R fanout : Nat} (hR1 : 1 ≤ R) (hmpp : mpp ≤ R)
    (hlen : len ≤ fanout) : (len * mpp + R - 1) / R ≤ fanout := by
  have h1 : len * mpp ≤ len * R := Nat.mul_le_mul_left len hmpp
  have h2 : (len * mpp + R - 1) / R ≤ (len * R + R - 1) / R :=
    Nat.div_le_div_right (by omega)
  have h3 : (len * R + R - 1) / R = len := by
    rw [show len * R + R - 1 = R - 1 + len * R by omega,
      Nat.add_mul_div_right _ _ (by omega : 0 < R),
      Nat.div_eq_of_lt (by omega), Nat.zero_add]
  omega

/-- C1: on every chain the reorganization accepts (length at most
max_reorg_fanout, with the usual sizing: positive per-record footprint that
fits in a page, an initial fill percentage of at most 100, and no more
records in the chain than the conservative estimate the code asserts), the
number of new pages it builds is at most max_reorg_fanout, and the
fill-percentage adjustment loop itself finishes with num_pages within the
bound. -/
theorem reorg_fanout_bound (c : PageConsts) (opts : ReorgOptions)
    (page0 : ChainPage) (rest : List ChainPage) (fp : Nat)
    (hsize : 0 < opts.record_size - page0.keyPrefixLen + c.perRecordMetadataSize)
    (husable : opts.record_size - page0.keyPrefixLen + c.perRecordMetadataSize ≤
      c.usableSize)
    (hfp : fp ≤ 100)
    (hlen : (page0 :: rest).length ≤ opts.max_reorg_fanout)
    (hcount : (pmiRecords (page0 :: rest)).length ≤
      (reorgInitialHints c opts page0 rest fp).num_keys) :
    (reorganizeOverflowChain c opts (page0 :: rest) fp).newNumPages ≤
      opts.max_reorg_fanout ∧
    (adjustFillPct c opts.max_reorg_fanout
        (reorgInitialHints c opts page0 rest fp)).num_pages c ≤
      opts.max_reorg_fanout := by
  have hR1 : 1 ≤ c.usableSize /
      (opts.record_size - page0.keyPrefixLen + c.perRecordMetadataSize) :=
    (Nat.one_le_div_iff hsize).mpr husable
  have hrpp100 : ({ reorgInitialHints c opts page0 rest fp with
      page_fill_pct := 100 } : KeyDistHints).records_per_page c =
      c.usableSize /
        (opts.record_size - page0.keyPrefixLen + c.perRecordMetadataSize) := by
    show c.usableSize * 100 / 100 /
        (opts.record_size - page0.keyPrefixLen + c.perRecordMetadataSize) = _
    have h1 : c.usableSize * 100 / 100 = c.usableSize := by omega
    rw [h1]
  have hd100 : ({ reorgInitialHints c opts page0 rest fp with
      page_fill_pct := 100 } : KeyDistHints).num_pages c ≤
      opts.max_reorg_fanout := by
    unfold KeyDistHints.num_pages
    rw [hrpp100]
    show ((page0 :: rest).length * ((c.usableSize - 2 * opts.record_size) /
        (opts.record_size - page0.keyPrefixLen + c.perRecordMetadataSize)) +
        c.usableSize /
          (opts.record_size - page0.keyPrefixLen + c.perRecordMetadataSize) - 1) /
        (c.usableSize /
          (opts.record_size - page0.keyPrefixLen + c.perRecordMetadataSize)) ≤
        opts.max_reorg_fanout
    exact ceil_bound_aux hR1 (Nat.div_le_div_right (Nat.sub_le _ _)) hlen
  have hadj := adjustFillPct_num_pages_le c opts.max_reorg_fanout
    (reorgInitialHints c opts page0 rest fp) (show fp ≤ 100 from hfp) hd100
  refine ⟨?_, hadj⟩
  by_cases hone : (page0 :: rest).length = 1
  · rw [reorganizeOverflowChain.eq_def, if_pos hone]
    exact Nat.zero_le _
  · rw [reorganizeOverflowChain.eq_def, if_neg hone, if_neg (by omega)]
    show ({ adjustFillPct c opts.max_reorg_fanout
        (reorgInitialHints c opts page0 rest fp) with
        num_keys := (pmiRecords (page0 :: rest)).length } : KeyDistHints).num_pages c ≤
      opts.max_reorg_fanout
    have hfields := adjustFillPct_fields c opts.max_reorg_fanout
      (reorgInitialHints c opts page0 rest fp)
    have hcount2 : (pmiRecords (page0 :: rest)).length ≤
        (adjustFillPct c opts.max_reorg_fanout
          (reorgInitialHints c opts page0 rest fp)).num_keys := by
      rw [hfields.1]
      exact hcount
    have hmono := num_pages_mono_num_keys c
      (adjustFillPct c opts.max_reorg_fanout (reorgInitialHints c opts page0 rest fp))
      hcount2
    have heta : ({ adjustFillPct c opts.max_reorg_fanout
        (reorgInitialHints c opts page0 rest fp) with
        num_keys := (adjustFillPct c opts.max_reorg_fanout
          (reorgInitialHints c opts page0 rest fp)).num_keys } : KeyDistHints) =
        adjustFillPct c opts.max_reorg_fanout
          (reorgInitialHints c opts page0 rest fp) := rfl
    rw [heta] at hmono
    exact le_trans hmono hadj

/-- Witness for C1: a two-page chain with realistic sizing, evaluated
concretely. -/
theorem reorg_fanout_bound_witness :
    ((0 < (⟨50, 10, 8⟩ : ReorgOptions).record_size -
        (⟨[([1], [10])], 2, [0], [9]⟩ : ChainPage).keyPrefixLen +
        (⟨100, 2⟩ : PageConsts).perRecordMetadataSize) ∧
      ((⟨50, 10, 8⟩ : ReorgOptions).record_size -
        (⟨[([1], [10])], 2, [0], [9]⟩ : ChainPage).keyPrefixLen +
        (⟨100, 2⟩ : PageConsts).perRecordMetadataSize ≤
        (⟨100, 2⟩ : PageConsts).usableSize) ∧
      (50 ≤ 100) ∧
      (([⟨[([1], [10])], 2, [0], [9]⟩, ⟨[([2], [20])], 2, [0], [9]⟩] :
          List ChainPage).length ≤ (⟨50, 10, 8⟩ : ReorgOptions).max_reorg_fanout) ∧
      ((pmiRecords [⟨[([1], [10])], 2, [0], [9]⟩, ⟨[([2], [20])], 2, [0], [9]⟩]).length ≤
        (reorgInitialHints ⟨100, 2⟩ ⟨50, 10, 8⟩ ⟨[([1], [10])], 2, [0], [9]⟩
          [⟨[([2], [20])], 2, [0], [9]⟩] 50).num_keys)) ∧
    ((reorganizeOverflowChain ⟨100, 2⟩ ⟨50, 10, 8⟩
        [⟨[([1], [10])], 2, [0], [9]⟩, ⟨[([2], [20])], 2, [0], [9]⟩] 50).newNumPages ≤
      (⟨50, 10, 8⟩ : ReorgOptions).max_reorg_fanout ∧
    (adjustFillPct ⟨100, 2⟩ (⟨50, 10, 8⟩ : ReorgOptions).max_reorg_fanout
        (reorgInitialHints ⟨100, 2⟩ ⟨50, 10, 8⟩ ⟨[([1], [10])], 2, [0], [9]⟩
          [⟨[([2], [20])], 2, [0], [9]⟩] 50)).num_pages ⟨100, 2⟩ ≤
      (⟨50, 10, 8⟩ : ReorgOptions).max_reorg_fanout) :=
  ⟨⟨by decide, by decide, by decide, by decide, by decide⟩,
    reorg_fanout_bound ⟨100, 2⟩ ⟨50, 10, 8⟩ ⟨[([1], [10])], 2, [0], [9]⟩
      [⟨[([2], [20])], 2, [0], [9]⟩] 50
      (by decide) (by decide) (by decide) (by decide) (by decide)⟩

/-- C6: on a chain of length 1, ReorganizeOverflowChain is a no-op: it
unfixes the single page as not-dirty and returns OK, writing no page,
inserting nothing into the model, and allocating no pages. -/
theorem reorg_chain_length_one_noop (c : PageConsts) (opts : ReorgOptions)
    (chain : List ChainPage) (fp : Nat) (h : chain.length = 1) :
    reorganizeOverflowChain c opts chain fp =
      { status := .ok, unfixes := [(.old 0, false)], newNumPages := 0,
        allocations := 0, modelInserts := [], pageWrites := 0 } := by
  rw [reorganizeOverflowChain.eq_def, if_pos h]

/-- Witness for C6: a concrete one-page chain. -/
theorem reorg_chain_length_one_noop_witness :
    ([(⟨[([1], [2])], 0, [0], [9]⟩ : ChainPage)].length = 1) ∧
      reorganizeOverflowChain ⟨100, 2⟩ ⟨50, 10, 8⟩
          [⟨[([1], [2])], 0, [0], [9]⟩] 50 =
        { status := .ok, unfixes := [(.old 0, false)], newNumPages := 0,
          allocations := 0, modelInserts := [], pageWrites := 0 } :=
  ⟨rfl, reorg_chain_length_one_noop ⟨100, 2⟩ ⟨50, 10, 8⟩
    [⟨[([1], [2])], 0, [0], [9]⟩] 50 rfl⟩

/-- Counterexample to C5 as stated: with max_reorg_fanout = 0 a chain of
length 1 exceeds the fanout, yet ReorganizeOverflowChain takes the
scheduled-twice branch first and returns OK, not InvalidArgument. -/
theorem reorg_too_long_claim_counterexample :
    ([(⟨[], 0, [], []⟩ : ChainPage)].length >
        (⟨0, 10, 8⟩ : ReorgOptions).max_reorg_fanout) ∧
      (reorganizeOverflowChain ⟨100, 2⟩ ⟨0, 10, 8⟩ [⟨[], 0, [], []⟩] 50).status =
        Status.ok ∧
      (reorganizeOverflowChain ⟨100, 2⟩ ⟨0, 10, 8⟩ [⟨[], 0, [], []⟩] 50).status ≠
        Status.invalidArgument :=
  ⟨by decide, by decide, by decide⟩

/-- C5 (amended): on a chain of length at least 2 whose length exceeds
max_reorg_fanout, ReorganizeOverflowChain returns InvalidArgument, unfixes
every frame of the chain as not-dirty, and performs no page write, no model
insertion, and no allocation. -/
theorem reorg_chain_too_long_rejected (c : PageConsts) (opts : ReorgOptions)
    (chain : List ChainPage) (fp : Nat) (h2 : 2 ≤ chain.length)
    (h : opts.max_reorg_fanout < chain.length) :
    reorganizeOverflowChain c opts chain fp =
      { status := .invalidArgument,
        unfixes := (List.range chain.length).map (fun i => (.old i, false)),
        newNumPages := 0, allocations := 0, modelInserts := [], pageWrites := 0 } := by
  rw [reorganizeOverflowChain.eq_def, if_neg (by omega), if_pos h]

/-- Witness for C5 (amended): a two-page chain against a fanout of 1. -/
theorem reorg_chain_too_long_rejected_witness :
    (2 ≤ ([⟨[], 0, [], []⟩, ⟨[], 0, [], []⟩] : List ChainPage).length) ∧
      ((⟨1, 10, 8⟩ : ReorgOptions).max_reorg_fanout <
          ([⟨[], 0, [], []⟩, ⟨[], 0, [], []⟩] : List ChainPage).length) ∧
      reorganizeOverflowChain ⟨100, 2⟩ ⟨1, 10, 8⟩
          [⟨[], 0, [], []⟩, ⟨[], 0, [], []⟩] 50 =
        { status := .invalidArgument,
          unfixes := (List.range ([⟨[], 0, [], []⟩, ⟨[], 0, [], []⟩] :
              List ChainPage).length).map (fun i => (.old i, false)),
          newNumPages := 0, allocations := 0, modelInserts := [],
          pageWrites := 0 } :=
  ⟨by decide, by decide,
    reorg_chain_too_long_rejected ⟨100, 2⟩ ⟨1, 10, 8⟩
      [⟨[], 0, [], []⟩, ⟨[], 0, [], []⟩] 50 (by decide) (by decide)⟩

end DB

namespace PG

/-- Modelled from the spec: the PLR model line `y = slope * x + intercept`
(plr/ is external to the sources); exact rational arithmetic stands in for the
source's double arithmetic. -/
structure Line where
  slope : ℚ
  intercept : ℚ
deriving DecidableEq, Repr

/-- Apply the line. -/
def Line.apply (l : Line) (x : ℚ) : ℚ := l.slope * x + l.intercept

/-- Modelled from the spec: Line::Invert, so that the inverse maps a page
index back to a key offset. -/
def Line.invert (l : Line) : Line := ⟨1 / l.slope, -l.intercept / l.slope⟩

/-- Modelled from the spec: `static_cast<Key>` of the double produced by the
inverted model; truncation of a nonnegative value (every value the code casts
is nonnegative under the model hypotheses of the theorems below). -/
def castKey (q : ℚ) : Nat := (⌊q⌋).toNat

/-- The portion of a segment that ComputePageLowerBoundaries reads: its base
key, page count, and model line. -/
structure Segment where
  base_key : Nat
  page_count : Nat
  model : Line
deriving DecidableEq, Repr

/-- Modelled from the spec (I3): `PageForKey(base, model, page_count, key)`
clamps the floor of the model applied to the key offset into
`[0, page_count - 1]`. -/
def pageForKey (base : Nat) (l : Line) (pc : Nat) (k : Nat) : Nat :=
  min (pc - 1) (⌊l.apply ((k : ℚ) - (base : ℚ))⌋).toNat

/-- std::lower_bound over the key domain (the KeyDomainIterator of
manager_load.cc): the first key in `[lo, hi)` for which the predicate fails,
or `hi` when none does. -/
def lowerBoundKey (lo hi : Nat) (p : Nat → Bool) : Nat :=
  if h : lo < hi then (if p lo then lowerBoundKey (lo + 1) hi p else lo) else hi
termination_by hi - lo
decreasing_by omega

/-- The loop body of ComputePageLowerBoundaries
(src/page_grouping/manager_load.cc, lines 124-170) for one page index:
compute the candidate boundary from the inverted model, choose the bracket
according to `PageForKey(candidate)`, and binary-search for the smallest key
mapping to at least `page_idx`. -/
def computeBoundary (seg : Segment) (page_idx : Nat) : Nat :=
  if page_idx ≤ pageForKey seg.base_key seg.model seg.page_count
      (castKey (seg.model.invert.apply ((page_idx : Nat) : ℚ)) + seg.base_key) then
    lowerBoundKey
      (castKey (seg.model.invert.apply (((page_idx - 1 : Nat) : ℚ))) + seg.base_key)
      (castKey (seg.model.invert.apply ((page_idx : Nat) : ℚ)) + seg.base_key)
      (fun k => decide (pageForKey seg.base_key seg.model seg.page_count k < page_idx))
  else
    lowerBoundKey
      (castKey (seg.model.invert.apply ((page_idx : Nat) : ℚ)) + seg.base_key)
      (castKey (seg.model.invert.apply (((page_idx + 1 : Nat) : ℚ))) + seg.base_key)
      (fun k => decide (pageForKey seg.base_key seg.model seg.page_count k < page_idx))

/-- ComputePageLowerBoundaries (manager_load.cc, lines 112-174): the base key
followed by the boundary of every further page. -/
def computePageLowerBoundaries (seg : Segment) : List Nat :=
  if seg.page_count = 1 then [seg.base_key]
  else seg.base_key :: (List.range' 1 (seg.page_count - 1)).map (computeBoundary seg)

/-- The true boundary of page `i`: the smallest key whose model offset reaches
`i` (proof-internal description of the search result). -/
def bnd (base : Nat) (s t : ℚ) (i : Nat) : Nat := base + (⌈((i : ℚ) - t) / s⌉).toNat

theorem invert_apply (s t : ℚ) (hs : s ≠ 0) (q : ℚ) :
    (Line.mk s t).invert.apply q = (q - t) / s := by
  unfold Line.invert Line.apply
  field_simp
  ring

theorem xq_pos {s t : ℚ} (hs : 0 < s) (ht1 : t < 1) {i : Nat} (hi : 0 < i) :
    0 < ((i : ℚ) - t) / s := by
  apply div_pos _ hs
  have h1 : (1 : ℚ) ≤ (i : ℚ) := by
    exact_mod_cast hi
  linarith

theorem ceil_xq_pos {s t : ℚ} (hs : 0 < s) (ht1 : t < 1) {i : Nat} (hi : 0 < i) :
    1 ≤ ⌈((i : ℚ) - t) / s⌉ :=
  Int.ceil_pos.mpr (xq_pos hs ht1 hi)

theorem pageForKey_ge_iff {s t : ℚ} (hs : 0 < s) (ht1 : t < 1) {base pc i : Nat}
    (hi1 : 0 < i) (hi2 : i < pc) (k : Nat) :
    i ≤ pageForKey base ⟨s, t⟩ pc k ↔ bnd base s t i ≤ k := by
  have hceil := ceil_xq_pos hs ht1 hi1 (t := t)
  unfold pageForKey bnd Line.apply
  rw [le_min_iff, and_iff_right (show i ≤ pc - 1 by omega)]
  rw [show (i ≤ (⌊s * ((k : ℚ) - (base : ℚ)) + t⌋).toNat ↔
      ((i : ℤ) ≤ ⌊s * ((k : ℚ) - (base : ℚ)) + t⌋)) from by omega]
  rw [Int.le_floor]
  push_cast
  have key : ((i : ℚ) - t) / s ≤ (k : ℚ) - (base : ℚ) ↔
      (i : ℚ) ≤ s * ((k : ℚ) - (base : ℚ)) + t := by
    rw [div_le_iff hs]
    constructor <;> intro h <;> nlinarith
  rw [← key]
  have hcast : (((k : ℤ) - (base : ℤ) : ℤ) : ℚ) = (k : ℚ) - (base : ℚ) := by
    push_cast
    ring
  rw [show (((i : ℚ) - t) / s ≤ (k : ℚ) - (base : ℚ) ↔
      (⌈((i : ℚ) - t) / s⌉ ≤ (k : ℤ) - (base : ℤ))) from by
    rw [Int.ceil_le, hcast]]
  omega

theorem pageForKey_lt_of_lt_bnd {s t : ℚ} (hs : 0 < s) (ht1 : t < 1)
    {base pc i k : Nat} (hi1 : 0 < i) (hi2 : i < pc) (hk : k < bnd base s t i) :
    pageForKey base ⟨s, t⟩ pc k < i := by
  rcases Nat.lt_or_ge (pageForKey base ⟨s, t⟩ pc k) i with h | h
  · exact h
  · exfalso
    have := (pageForKey_ge_iff hs ht1 hi1 hi2 k).mp h
    omega

theorem xq_succ_ge {s t : ℚ} (hs : 0 < s) (hs1 : s ≤ 1) (i : Nat) :
    ((i : ℚ) - t) / s + 1 ≤ (((i + 1 : Nat) : ℚ) - t) / s := by
  have hsum : (((i + 1 : Nat) : ℚ) - t) / s = ((i : ℚ) - t) / s + 1 / s := by
    push_cast
    ring
  have h1s : 1 ≤ 1 / s := by
    rw [le_div_iff hs]
    linarith
  linarith

theorem bnd_strict_mono {s t : ℚ} (hs : 0 < s) (hs1 : s ≤ 1) (ht1 : t < 1)
    {base i : Nat} (hi : 0 < i) : bnd base s t i < bnd base s t (i + 1) := by
  have hceil1 := ceil_xq_pos hs ht1 hi (t := t)
  have hstep : ⌈((i : ℚ) - t) / s⌉ + 1 ≤ ⌈(((i + 1 : Nat) : ℚ) - t) / s⌉ := by
    calc ⌈((i : ℚ) - t) / s⌉ + 1 = ⌈((i : ℚ) - t) / s + 1⌉ := (Int.ceil_add_one _).symm
      _ ≤ ⌈(((i + 1 : Nat) : ℚ) - t) / s⌉ := Int.ceil_mono (xq_succ_ge hs hs1 i)
  unfold bnd
  omega

theorem pageForKey_bnd {s t : ℚ} (hs : 0 < s) (hs1 : s ≤ 1) (ht1 : t < 1)
    {base pc i : Nat} (hi1 : 0 < i) (hi2 : i < pc) :
    pageForKey base ⟨s, t⟩ pc (bnd base s t i) = i := by
  have h1 : i ≤ pageForKey base ⟨s, t⟩ pc (bnd base s t i) :=
    (pageForKey_ge_iff hs ht1 hi1 hi2 _).mpr (Nat.le_refl _)
  by_cases hend : i + 1 < pc
  · have h2 : ¬ (i + 1 ≤ pageForKey base ⟨s, t⟩ pc (bnd base s t i)) := by
      rw [pageForKey_ge_iff hs ht1 (by omega) hend]
      have : bnd base s t i < bnd base s t (i + 1) := bnd_strict_mono hs hs1 ht1 hi1
      omega
    omega
  · have hle : pageForKey base ⟨s, t⟩ pc (bnd base s t i) ≤ pc - 1 :=
      Nat.min_le_left _ _
    omega

theorem lowerBoundKey_spec : ∀ (lo hi : Nat) (p : Nat → Bool) (m : Nat),
    lo ≤ m → m ≤ hi → (∀ k, lo ≤ k → k < m → p k = true) →
    (m = hi ∨ p m = false) → lowerBoundKey lo hi p = m := by
  intro lo hi p
  induction lo, hi, p using lowerBoundKey.induct with
  | case1 lo hi p h hp ih =>
    intro m h1 h2 h3 h4
    rw [lowerBoundKey, dif_pos h, if_pos hp]
    apply ih
    · rcases Nat.lt_or_ge lo m with hx | hx
      · omega
      · exfalso
        have hm : m = lo := by omega
        rcases h4 with h4 | h4
        · omega
        · rw [hm] at h4
          rw [h4] at hp
          cases hp
    · exact h2
    · intro k hk1 hk2
      exact h3 k (by omega) hk2
    · exact h4
  | case2 lo hi p h hp =>
    intro m h1 h2 h3 h4
    rw [lowerBoundKey, dif_pos h, if_neg (by simp [hp])]
    have hnot : ¬ lo < m := by
      intro hlt
      have := h3 lo (Nat.le_refl lo) hlt
      rw [this] at hp
      exact hp rfl
    omega
  | case3 lo hi p h =>
    intro m h1 h2 h3 h4
    rw [lowerBoundKey, dif_neg h]
    omega

theorem computeBoundary_eq {s t : ℚ} (hs : 0 < s) (hs1 : s ≤ 1) (ht1 : t < 1)
    {base pc i : Nat} (hi1 : 0 < i) (hi2 : i < pc) :
    computeBoundary ⟨base, pc, ⟨s, t⟩⟩ i = bnd base s t i := by
  have hs0 : s ≠ 0 := ne_of_gt hs
  have hxpos := xq_pos hs ht1 hi1 (t := t)
  have hceil := ceil_xq_pos hs ht1 hi1 (t := t)
  have hfloor0 : 0 ≤ ⌊((i : ℚ) - t) / s⌋ := Int.floor_nonneg.mpr (le_of_lt hxpos)
  have hflc : ⌊((i : ℚ) - t) / s⌋ ≤ ⌈((i : ℚ) - t) / s⌉ := Int.floor_le_ceil _
  rw [computeBoundary]
  simp only [invert_apply s t hs0]
  have hc_le : castKey (((i : ℚ) - t) / s) + base ≤ bnd base s t i := by
    unfold castKey bnd
    omega
  split_ifs with hcase
  · have hbc : bnd base s t i ≤ castKey (((i : ℚ) - t) / s) + base :=
      (pageForKey_ge_iff hs ht1 hi1 hi2 _).mp hcase
    have hceq : castKey (((i : ℚ) - t) / s) + base = bnd base s t i :=
      le_antisymm hc_le hbc
    rw [hceq]
    apply lowerBoundKey_spec
    · have hmono : ⌊(((i - 1 : Nat) : ℚ) - t) / s⌋ ≤ ⌊((i : ℚ) - t) / s⌋ := by
        apply Int.floor_mono
        have hcast : ((i - 1 : Nat) : ℚ) ≤ (i : ℚ) := by
          exact_mod_cast Nat.sub_le i 1
        exact (div_le_div_iff_of_pos_right hs).mpr (by linarith)
      unfold castKey bnd
      omega
    · exact Nat.le_refl _
    · intro k hk1 hk2
      simp only [decide_eq_true_eq]
      exact pageForKey_lt_of_lt_bnd hs ht1 hi1 hi2 hk2
    · exact Or.inl rfl
  · have hclt : castKey (((i : ℚ) - t) / s) + base < bnd base s t i := by
      rcases Nat.lt_or_ge (castKey (((i : ℚ) - t) / s) + base) (bnd base s t i) with h | h
      · exact h
      · exact absurd ((pageForKey_ge_iff hs ht1 hi1 hi2 _).mpr h) hcase
    apply lowerBoundKey_spec
    · exact le_of_lt hclt
    · have h1 : ⌈((i : ℚ) - t) / s⌉ ≤ ⌊((i : ℚ) - t) / s⌋ + 1 :=
        Int.ceil_le_floor_add_one _
      have h2 : ⌊((i : ℚ) - t) / s⌋ + 1 ≤ ⌊(((i + 1 : Nat) : ℚ) - t) / s⌋ := by
        rw [show ⌊((i : ℚ) - t) / s⌋ + 1 = ⌊((i : ℚ) - t) / s + 1⌋ from
          (Int.floor_add_one _).symm]
        exact Int.floor_mono (xq_succ_ge hs hs1 i)
      unfold castKey bnd
      omega
    · intro k hk1 hk2
      simp only [decide_eq_true_eq]
      exact pageForKey_lt_of_lt_bnd hs ht1 hi1 hi2 hk2
    · right
      simp only [decide_eq_false_iff_not, not_lt]
      rw [pageForKey_bnd hs hs1 ht1 hi1 hi2]

theorem chain'_lt_map_range' {g : Nat → Nat} : ∀ (n st : Nat),
    (∀ i, st ≤ i → i + 1 < st + n → g i < g (i + 1)) →
    List.Chain' (· < ·) ((List.range' st n).map g) := by
  intro n
  induction n with
  | zero => intro st _; exact List.chain'_nil
  | succ m ih =>
    intro st hmono
    rw [List.range'_succ, List.map_cons, List.chain'_cons']
    constructor
    · intro y hy
      rcases m with _ | m2
      · simp at hy
      · rw [List.range'_succ, List.map_cons] at hy
        simp only [List.head?_cons, Option.mem_def, Option.some.injEq] at hy
        rw [← hy]
        exact hmono st (Nat.le_refl _) (by omega)
    · exact ih (st + 1) (fun i h1 h2 => hmono i (by omega) (by omega))

/-- C8: for a multi-page segment whose model behaves as the segment builder
produces it (positive slope at most 1, intercept in [0, 1)),
ComputePageLowerBoundaries returns one boundary per page; the boundaries are
strictly increasing and start at the segment's base key; and for every page
index i > 0 the returned boundary is the smallest key that PageForKey maps to
page i. -/
theorem computePageLowerBoundaries_spec (base pc : Nat) (s t : ℚ)
    (hs : 0 < s) (hs1 : s ≤ 1) (ht0 : 0 ≤ t) (ht1 : t < 1) (hpc : 2 ≤ pc) :
    (computePageLowerBoundaries ⟨base, pc, ⟨s, t⟩⟩).length = pc ∧
    (computePageLowerBoundaries ⟨base, pc, ⟨s, t⟩⟩).head? = some base ∧
    List.Chain' (· < ·) (computePageLowerBoundaries ⟨base, pc, ⟨s, t⟩⟩) ∧
    ∀ i : Nat, 0 < i → i < pc →
      ∃ b, (computePageLowerBoundaries ⟨base, pc, ⟨s, t⟩⟩)[i]? = some b ∧
        pageForKey base ⟨s, t⟩ pc b = i ∧
        ∀ k : Nat, k < b → pageForKey base ⟨s, t⟩ pc k ≠ i := by
  have hne1 : ¬ ((⟨base, pc, ⟨s, t⟩⟩ : Segment).page_count = 1) := by
    show ¬ pc = 1
    omega
  have hlist : computePageLowerBoundaries ⟨base, pc, ⟨s, t⟩⟩ =
      base :: (List.range' 1 (pc - 1)).map (fun j => bnd base s t j) := by
    rw [computePageLowerBoundaries, if_neg hne1]
    congr 1
    apply List.map_congr_left
    intro j hj
    rw [List.mem_range'] at hj
    obtain ⟨a, ha1, ha2⟩ := hj
    have ha1' : a < pc - 1 := ha1
    exact computeBoundary_eq hs hs1 ht1 (by omega) (by omega)
  refine ⟨?_, ?_, ?_, ?_⟩
  · rw [hlist]
    simp [List.length_range']
    omega
  · rw [hlist]
    rfl
  · rw [hlist]
    rw [List.chain'_cons']
    constructor
    · intro y hy
      have hpc1 : pc - 1 = (pc - 2) + 1 := by omega
      rw [hpc1, List.range'_succ, List.map_cons] at hy
      simp only [List.head?_cons, Option.mem_def, Option.some.injEq] at hy
      rw [← hy]
      have hceil := ceil_xq_pos hs ht1 (show 0 < 1 by omega) (t := t)
      unfold bnd
      omega
    · apply chain'_lt_map_range'
      intro i h1 h2
      exact bnd_strict_mono hs hs1 ht1 (by omega)
  · intro i hi1 hi2
    refine ⟨bnd base s t i, ?_, pageForKey_bnd hs hs1 ht1 hi1 hi2, ?_⟩
    · rw [hlist]
      rcases i with _ | j
      · omega
      · rw [List.getElem?_cons_succ, List.getElem?_map,
          List.getElem?_range' _ _ (show j < pc - 1 by omega)]
        simp only [Option.map_some']
        rw [show 1 + 1 * j = j + 1 from by omega]
    · intro k hk
      have := pageForKey_lt_of_lt_bnd hs ht1 hi1 hi2 hk
      omega

/-- Witness for C8: a four-page segment with slope 1/2 and intercept 0. -/
theorem computePageLowerBoundaries_spec_witness :
    ((0 : ℚ) < 1 / 2 ∧ (1 / 2 : ℚ) ≤ 1 ∧ (0 : ℚ) ≤ 0 ∧ (0 : ℚ) < 1 ∧ 2 ≤ 4) ∧
      ((computePageLowerBoundaries ⟨100, 4, ⟨1 / 2, 0⟩⟩).length = 4 ∧
      (computePageLowerBoundaries ⟨100, 4, ⟨1 / 2, 0⟩⟩).head? = some 100 ∧
      List.Chain' (· < ·) (computePageLowerBoundaries ⟨100, 4, ⟨1 / 2, 0⟩⟩) ∧
      ∀ i : Nat, 0 < i → i < 4 →
        ∃ b, (computePageLowerBoundaries ⟨100, 4, ⟨1 / 2, 0⟩⟩)[i]? = some b ∧
          pageForKey 100 ⟨1 / 2, 0⟩ 4 b = i ∧
          ∀ k : Nat, k < b → pageForKey 100 ⟨1 / 2, 0⟩ 4 k ≠ i) :=
  ⟨⟨by norm_num, by norm_num, le_refl 0, by norm_num, by norm_num⟩,
    computePageLowerBoundaries_spec 100 4 (1 / 2) 0 (by norm_num) (by norm_num)
      (le_refl 0) (by norm_num) (by norm_num)⟩

end PG

end Treeline
